import Mathlib

/-!
Verification development for the Chessable TTS core: a shallow embedding of
the SAN move parser and speech transducer (`src/chess-notation.ts`) and of the
narration-coordinator state machine (`src/content.ts`), with theorems settling
the frozen claims about them.

Strings are modelled as `List Char` (JavaScript strings are sequences of
code units; all inputs of interest here are plain text).  JavaScript regular
expressions are embedded as explicit backtracking matchers that follow the
greedy, ordered-alternative semantics of the concrete patterns in the source.
-/

namespace ChessTTS

/-- Convert a Lean string literal to the `List Char` representation used
throughout the development. -/
def toL (s : String) : List Char := s.toList

/-! ### Character classes

The character classes of the source regexes, as explicit finite sets.
`jsWs` models the whitespace characters relevant to `trim()` / `\s` for the
ASCII texts this core processes. -/

/-- Word characters for the `\b` boundary assertion (`[A-Za-z0-9_]`). -/
def isWordChar (c : Char) : Bool :=
  (('a' ≤ c && c ≤ 'z') || ('A' ≤ c && c ≤ 'Z') || ('0' ≤ c && c ≤ '9') || c = '_')

/-- Whitespace for `trim()` and `\s*` (ASCII subset). -/
def jsWs (c : Char) : Bool :=
  c = '\u0009' || c = '\u000a' || c = '\u000b' || c = '\u000c' || c = '\u000d' || c = ' '

/-- Digits `\d` = `[0-9]`. -/
def isDigitC (c : Char) : Bool :=
  c = '0' || c = '1' || c = '2' || c = '3' || c = '4' || c = '5' || c = '6' || c = '7'
    || c = '8' || c = '9'

/-- Board files `[a-h]`. -/
def isFileChar (c : Char) : Bool :=
  c = 'a' || c = 'b' || c = 'c' || c = 'd' || c = 'e' || c = 'f' || c = 'g' || c = 'h'

/-- Board ranks `[1-8]`. -/
def isRankChar (c : Char) : Bool :=
  c = '1' || c = '2' || c = '3' || c = '4' || c = '5' || c = '6' || c = '7' || c = '8'

/-- Piece letters `[KQRBN]`. -/
def isPieceCharB (c : Char) : Bool :=
  c = 'K' || c = 'Q' || c = 'R' || c = 'B' || c = 'N'

/-- Promotion piece letters `[QRBN]`. -/
def isPromoPieceB (c : Char) : Bool :=
  c = 'Q' || c = 'R' || c = 'B' || c = 'N'

/-- Annotation glyphs `[!?]`. -/
def isAnnotGlyph (c : Char) : Bool :=
  c = '!' || c = '?'

/-- Suffix glyphs `[+#!?]` of the scanning pattern. -/
def isSuffixGlyph (c : Char) : Bool :=
  c = '+' || c = '#' || c = '!' || c = '?'

/-! ### Data model (`types.ts`) -/

/-- Embedding of the `ParsedMove` interface.  `piece`, `fromFile`, `fromRank`
and `promotionPiece` hold the literal characters captured from the token
(`null` becomes `none`); `toSquare` is the two-character destination square. -/
structure ParsedMove where
  piece : Option Char
  fromFile : Option Char
  fromRank : Option Char
  isCapture : Bool
  toSquare : List Char
  promotionPiece : Option Char
  isCheck : Bool
  isDoubleCheck : Bool
  isCheckmate : Bool
  isCastleKingside : Bool
  isCastleQueenside : Bool
deriving DecidableEq, Repr

/-- Embedding of the `MoveRange` record. -/
structure MoveRange where
  charStart : Nat
  charEnd : Nat
  square : List Char
deriving DecidableEq, Repr

/-! ### Small string helpers used by `parseMove` -/

/-- JavaScript `String.prototype.trim` (leading and trailing whitespace). -/
def jsTrim (cs : List Char) : List Char :=
  ((cs.dropWhile jsWs).reverse.dropWhile jsWs).reverse

/-- The `move.replace(/^\d+\.+\s*/, '')` step: strip a move-number marker at
the start of the token (one or more digits, one or more dots, optional
whitespace); if the shape is not present the token is unchanged. -/
def stripMoveNum (cs : List Char) : List Char :=
  let ds := cs.takeWhile isDigitC
  if ds = [] then cs
  else
    let r1 := cs.dropWhile isDigitC
    let dots := r1.takeWhile (fun c => c = '.')
    if dots = [] then cs
    else (r1.dropWhile (fun c => c = '.')).dropWhile jsWs

/-- The check/double-check/checkmate suffix detection of `parseMove`:
`endsWith('#')`, then `endsWith('++')`, then `endsWith('+')`, stripping the
matched suffix.  Implemented on the reversed list, which is equivalent to
the `endsWith`/`slice` pair used in the source. -/
def detectSuffix (cs : List Char) : (Bool × Bool × Bool) × List Char :=
  match cs.reverse with
  | [] => ((false, false, false), cs)
  | c1 :: r1 =>
    if c1 = '#' then ((false, false, true), r1.reverse)
    else if c1 = '+' then
      match r1 with
      | c2 :: r2 =>
        if c2 = '+' then ((false, true, false), r2.reverse)
        else ((true, false, false), r1.reverse)
      | [] => ((true, false, false), r1.reverse)
    else ((false, false, false), cs)

/-- The `move.replace(/[!?]+$/, '')` step: strip trailing annotation glyphs. -/
def stripAnnotGlyphs (cs : List Char) : List Char :=
  (cs.reverse.dropWhile isAnnotGlyph).reverse

/-- The leftmost match of `/=?([QRBN])$/`: a trailing promotion piece letter,
including a directly preceding `=` when present.  Returns the captured piece
and the text before the whole match. -/
def promoSplit (cs : List Char) : Option (Char × List Char) :=
  match cs.reverse with
  | [] => none
  | p :: r =>
    if isPromoPieceB p then
      match r with
      | e :: r2 => if e = '=' then some (p, r2.reverse) else some (p, r.reverse)
      | [] => some (p, r.reverse)
    else none

/-- The promotion-detection step of `parseMove`: the trailing piece letter is
treated as a promotion only if the text before it ends in a rank digit
(`/[1-8]$/`). -/
def promoDetect (cs : List Char) : Option Char × List Char :=
  match promoSplit cs with
  | none => (none, cs)
  | some (p, before) =>
    match before.reverse with
    | [] => (none, cs)
    | c :: _ => if isRankChar c then (some p, before) else (none, cs)

/-! ### The anchored SAN matcher of `parseMove`

`/^([KQRBN])?([a-h])?([1-8])?(x)?([a-h][1-8])$/` with the capture groups,
embedded as a backtracking matcher: each optional group greedily consumes its
character first and falls back to skipping it, exactly as the regex engine
does.  The match must consume the whole string. -/

/-- `([a-h][1-8])$`: the whole remaining input must be the destination. -/
def destEx (cs : List Char) : Option (Char × Char) :=
  match cs with
  | [a, b] => if isFileChar a && isRankChar b then some (a, b) else none
  | _ => none

/-- `(x)?([a-h][1-8])$`. -/
def xDestEx (cs : List Char) : Option (Bool × Char × Char) :=
  match cs with
  | c :: rest =>
    if c = 'x' then
      match destEx rest with
      | some d => some (true, d)
      | none =>
        match destEx cs with
        | some d => some (false, d)
        | none => none
    else
      match destEx cs with
      | some d => some (false, d)
      | none => none
  | [] => none

/-- `([1-8])?(x)?([a-h][1-8])$`. -/
def rankEx (cs : List Char) : Option (Option Char × Bool × Char × Char) :=
  match cs with
  | c :: rest =>
    if isRankChar c then
      match xDestEx rest with
      | some v => some (some c, v)
      | none =>
        match xDestEx cs with
        | some v => some (none, v)
        | none => none
    else
      match xDestEx cs with
      | some v => some (none, v)
      | none => none
  | [] => none

/-- `([a-h])?([1-8])?(x)?([a-h][1-8])$`. -/
def fileEx (cs : List Char) : Option (Option Char × Option Char × Bool × Char × Char) :=
  match cs with
  | c :: rest =>
    if isFileChar c then
      match rankEx rest with
      | some v => some (some c, v)
      | none =>
        match rankEx cs with
        | some v => some (none, v)
        | none => none
    else
      match rankEx cs with
      | some v => some (none, v)
      | none => none
  | [] => none

/-- The full anchored pattern with all captures. -/
def pieceEx (cs : List Char) :
    Option (Option Char × Option Char × Option Char × Bool × Char × Char) :=
  match cs with
  | c :: rest =>
    if isPieceCharB c then
      match fileEx rest with
      | some v => some (some c, v)
      | none =>
        match fileEx cs with
        | some v => some (none, v)
        | none => none
    else
      match fileEx cs with
      | some v => some (none, v)
      | none => none
  | [] => none

/-! ### `parseMove` -/

/-- Embedding of `parseMove` from `chess-notation.ts`. -/
def parseMove (token : List Char) : Option ParsedMove :=
  if token = [] then none
  else
    let m0 := jsTrim token
    let m1 := stripMoveNum m0
    let flags := (detectSuffix m1).1
    let m3 := stripAnnotGlyphs (detectSuffix m1).2
    if m3 = toL "O-O-O" || m3 = toL "0-0-0" then
      some { piece := none, fromFile := none, fromRank := none,
             isCapture := false, toSquare := toL "g8", promotionPiece := none,
             isCheck := flags.1, isDoubleCheck := flags.2.1, isCheckmate := flags.2.2,
             isCastleKingside := false, isCastleQueenside := true }
    else if m3 = toL "O-O" || m3 = toL "0-0" then
      some { piece := none, fromFile := none, fromRank := none,
             isCapture := false, toSquare := toL "g8", promotionPiece := none,
             isCheck := flags.1, isDoubleCheck := flags.2.1, isCheckmate := flags.2.2,
             isCastleKingside := true, isCastleQueenside := false }
    else
      match pieceEx (promoDetect m3).2 with
      | none => none
      | some (p, f, r, cap, d1, d2) =>
        some { piece := p, fromFile := f, fromRank := r,
               isCapture := cap, toSquare := [d1, d2],
               promotionPiece := (promoDetect m3).1,
               isCheck := flags.1, isDoubleCheck := flags.2.1, isCheckmate := flags.2.2,
               isCastleKingside := false, isCastleQueenside := false }

/-! ### `moveToSpeech` -/

/-- `Array.prototype.join(sep)` on a list of strings. -/
def joinSep (sep : List Char) : List (List Char) → List Char
  | [] => []
  | [p] => p
  | p :: ps => p ++ sep ++ joinSep sep ps

/-- `speakSquare`: the characters of a square joined by spaces. -/
def speakSquare (square : List Char) : List Char :=
  joinSep [' '] (square.map (fun c => [c]))

/-- The `PIECE_NAMES` record. -/
def pieceName (c : Char) : List Char :=
  if c = 'K' then toL "King"
  else if c = 'Q' then toL "Queen"
  else if c = 'R' then toL "Rook"
  else if c = 'B' then toL "Bishop"
  else if c = 'N' then toL "Knight"
  else []

/-- The final check-suffix words appended by `moveToSpeech` (outside the
castling branch in the source, hence appended for castling moves too). -/
def checkParts (pm : ParsedMove) : List (List Char) :=
  if pm.isCheckmate then [toL "checkmate"]
  else if pm.isDoubleCheck then [toL "double check"]
  else if pm.isCheck then [toL "check"]
  else []

/-- Embedding of `moveToSpeech` from `chess-notation.ts`: build the `parts`
array in program order and join with single spaces. -/
def moveToSpeech (pm : ParsedMove) : List Char :=
  let parts : List (List Char) :=
    if pm.isCastleQueenside then [toL "Queenside castle"]
    else if pm.isCastleKingside then [toL "Kingside castle"]
    else
      (match pm.piece with
       | some p => [pieceName p]
       | none =>
         match pm.fromFile, pm.isCapture with
         | some f, true => [[f] ++ toL " pawn"]
         | _, _ => [toL "pawn"])
      ++ (match pm.piece with
          | some _ =>
            if pm.fromFile ≠ none || pm.fromRank ≠ none then
              [toL "on " ++ speakSquare ((pm.fromFile.toList) ++ (pm.fromRank.toList))]
            else []
          | none => [])
      ++ [if pm.isCapture then toL "takes" else toL "to"]
      ++ [speakSquare pm.toSquare]
      ++ (match pm.promotionPiece with
          | some p => [toL "promotes to " ++ pieceName p]
          | none => [])
  joinSep [' '] (parts ++ checkParts pm)

/-! ### The scanning pattern `MOVE_PATTERN`

`/\b(?:\d+\.{1,3}\s*)?(?:O-O-O|O-O|0-0-0|0-0|[KQRBN]?[a-h]?[1-8]?x?[a-h][1-8](?:=[QRBN])?[+#!?]*)/g`

Each matcher returns `(consumed, rest)`.  Optional groups greedily consume
first and fall back, alternatives are tried in source order. -/

/-- A literal alternative such as `O-O-O`: consume it if it is a prefix. -/
def litTake : List Char → List Char → Option (List Char)
  | [], cs => some cs
  | _, [] => none
  | l :: ls, c :: cs => if c = l then litTake ls cs else none

/-- `[a-h][1-8]` (destination square) inside running text. -/
def destScan (cs : List Char) : Option (List Char × List Char) :=
  match cs with
  | a :: b :: rest => if isFileChar a && isRankChar b then some ([a, b], rest) else none
  | _ => none

/-- `x?[a-h][1-8]`. -/
def xDestScan (cs : List Char) : Option (List Char × List Char) :=
  match cs with
  | c :: rest =>
    if c = 'x' then
      match destScan rest with
      | some (m, r) => some ('x' :: m, r)
      | none => destScan cs
    else destScan cs
  | [] => none

/-- `[1-8]?x?[a-h][1-8]`. -/
def rankXDest (cs : List Char) : Option (List Char × List Char) :=
  match cs with
  | c :: rest =>
    if isRankChar c then
      match xDestScan rest with
      | some (m, r) => some (c :: m, r)
      | none => xDestScan cs
    else xDestScan cs
  | [] => none

/-- `[a-h]?[1-8]?x?[a-h][1-8]`. -/
def fileStep (cs : List Char) : Option (List Char × List Char) :=
  match cs with
  | c :: rest =>
    if isFileChar c then
      match rankXDest rest with
      | some (m, r) => some (c :: m, r)
      | none => rankXDest cs
    else rankXDest cs
  | [] => none

/-- `[KQRBN]?[a-h]?[1-8]?x?[a-h][1-8]`. -/
def pieceStep (cs : List Char) : Option (List Char × List Char) :=
  match cs with
  | c :: rest =>
    if isPieceCharB c then
      match fileStep rest with
      | some (m, r) => some (c :: m, r)
      | none => fileStep cs
    else fileStep cs
  | [] => none

/-- The greedy `(?:=[QRBN])?` group: consume `=` plus a promotion letter when
present, else consume nothing. -/
def promoScan (cs : List Char) : List Char × List Char :=
  match cs with
  | e :: p :: r => if e = '=' && isPromoPieceB p then (['=', p], r) else ([], cs)
  | _ => ([], cs)

/-- The full SAN alternative: core, then greedy `(?:=[QRBN])?`, then greedy
`[+#!?]*`.  Both trailing groups are final, so greediness never backtracks. -/
def sanScan (cs : List Char) : Option (List Char × List Char) :=
  match pieceStep cs with
  | none => none
  | some (core, rest) =>
    some (core ++ (promoScan rest).1 ++ (promoScan rest).2.takeWhile isSuffixGlyph,
          (promoScan rest).2.dropWhile isSuffixGlyph)

/-- The alternation `O-O-O|O-O|0-0-0|0-0|SAN`, in source order. -/
def matchBody (cs : List Char) : Option (List Char × List Char) :=
  match litTake (toL "O-O-O") cs with
  | some r => some (toL "O-O-O", r)
  | none =>
    match litTake (toL "O-O") cs with
    | some r => some (toL "O-O", r)
    | none =>
      match litTake (toL "0-0-0") cs with
      | some r => some (toL "0-0-0", r)
      | none =>
        match litTake (toL "0-0") cs with
        | some r => some (toL "0-0", r)
        | none => sanScan cs

/-- The optional `(?:\d+\.{1,3}\s*)?` marker of the pattern.  The digit, dot
and whitespace classes are disjoint from each other and from every character
the alternation can start with, so each greedy quantifier effectively
consumes its full run (a shorter take leaves a character the next sub-pattern
cannot match); when the dot run is absent or longer than 3 the whole optional
group fails and the engine falls back to matching the alternation directly. -/
def matchNum (cs : List Char) : Option (List Char × List Char) :=
  if cs.takeWhile isDigitC = [] then none
  else if ((cs.dropWhile isDigitC).takeWhile (fun c => c = '.') = []
           ∨ 3 < ((cs.dropWhile isDigitC).takeWhile (fun c => c = '.')).length) then none
  else
    match matchBody (((cs.dropWhile isDigitC).dropWhile (fun c => c = '.')).dropWhile jsWs) with
    | some (m, r) =>
      some (cs.takeWhile isDigitC
            ++ (cs.dropWhile isDigitC).takeWhile (fun c => c = '.')
            ++ ((cs.dropWhile isDigitC).dropWhile (fun c => c = '.')).takeWhile jsWs
            ++ m, r)
    | none => none

/-- The full pattern at one position: the optional move-number group, falling
back to the bare alternation when it cannot take part in a match. -/
def matchAtCore (cs : List Char) : Option (List Char × List Char) :=
  match matchNum cs with
  | some v => some v
  | none => matchBody cs

/-- The `\b` word-boundary assertion between the previous character (`none`
at the start of the text) and the first character of a candidate match. -/
def boundaryOk (prev : Option Char) (c : Char) : Bool :=
  match prev with
  | none => isWordChar c
  | some p => isWordChar p != isWordChar c

/-- Scan forward for the leftmost position where the pattern matches.
Returns the offset from the current position, the matched text and the rest
of the input after the match. -/
def scanStep (prev : Option Char) (cs : List Char) : Option (Nat × List Char × List Char) :=
  match cs with
  | [] => none
  | c :: rest =>
    match (if boundaryOk prev c then matchAtCore (c :: rest) else none) with
    | some (m, r) => some (0, m, r)
    | none =>
      match scanStep (some c) rest with
      | some (k, m, r) => some (k + 1, m, r)
      | none => none

/-- Repeated `exec` with the `g` flag: each match is reported with its
absolute index and scanning resumes directly after it (`lastIndex`).
`fuel` bounds the recursion; `scanMatches` supplies enough of it. -/
def scanAll : Nat → Option Char → List Char → Nat → List (Nat × List Char)
  | 0, _, _, _ => []
  | fuel + 1, prev, cs, base =>
    match scanStep prev cs with
    | none => []
    | some (k, m, r) =>
      (base + k, m) :: scanAll fuel (m.getLast? <|> prev) r (base + k + m.length)

/-- All matches of `MOVE_PATTERN` in a text, leftmost first. -/
def scanMatches (text : List Char) : List (Nat × List Char) :=
  scanAll (text.length + 1) none text 0

/-! ### `processText` and `processTextWithMoveMap` -/

/-- `text.slice(a, b)` for the in-bounds uses of the source. -/
def sliceL (text : List Char) (a b : Nat) : List Char :=
  (text.drop a).take (b - a)

/-- The replacement callback of `processText`: a match whose parse is
rejected, or whose spoken form is empty, is kept verbatim. -/
def replaceOne (m : List Char) : List Char :=
  match parseMove m with
  | none => m
  | some p =>
    let spoken := moveToSpeech p
    if spoken = [] then m else spoken

/-- The iteration of `String.prototype.replace` with a global regex: copy the
text between matches, substitute each match, append the tail. -/
def replLoop (text : List Char) : List (Nat × List Char) → List Char → Nat → List Char
  | [], out, last => out ++ text.drop last
  | (i, m) :: rest, out, last =>
    replLoop text rest (out ++ sliceL text last i ++ replaceOne m) (i + m.length)

/-- Embedding of `processText` from `chess-notation.ts`. -/
def processText (text : List Char) : List Char :=
  if text = [] then text
  else replLoop text (scanMatches text) [] 0

/-- Result record of `processTextWithMoveMap`. -/
structure ProcessResult where
  processed : List Char
  moveRanges : List MoveRange
deriving DecidableEq, Repr

/-- The range-recording step: castling moves are excluded. -/
def rangeEntry (pm : ParsedMove) (charStart charEnd : Nat) : List MoveRange :=
  if !pm.isCastleKingside && !pm.isCastleQueenside then
    [{ charStart := charStart, charEnd := charEnd, square := pm.toSquare }]
  else []

/-- The `exec` loop of `processTextWithMoveMap`: on a rejected parse the
local `lastIndex` cursor is not advanced (`continue`), so the original
substring flows into a later slice; on success the pending slice and the
spoken phrase are appended and the range recorded. -/
def mapLoop (text : List Char) :
    List (Nat × List Char) → List Char → Nat → List MoveRange → ProcessResult
  | [], res, last, rngs => { processed := res ++ text.drop last, moveRanges := rngs }
  | (i, m) :: rest, res, last, rngs =>
    match parseMove m with
    | none => mapLoop text rest res last rngs
    | some p =>
      let spoken := moveToSpeech p
      if spoken = [] then mapLoop text rest res last rngs
      else
        let res1 := res ++ sliceL text last i
        let res2 := res1 ++ spoken
        mapLoop text rest res2 (i + m.length)
          (rngs ++ rangeEntry p res1.length res2.length)

/-- Embedding of `processTextWithMoveMap` from `chess-notation.ts`. -/
def processTextWithMoveMap (text : List Char) : ProcessResult :=
  if text = [] then { processed := text, moveRanges := [] }
  else mapLoop text (scanMatches text) [] 0 []

/-! ### Narration coordinator (`content.ts`)

The coordinator's module-level mutable variables become a state record and
its event handlers become a step function on it.  The DOM and the speech
device are the external collaborators of the spec: DOM lookups performed at
the close of the detection window (`isWrongMoveVisible`, the extraction
helpers) are abstracted as parameters carried by the timer-fire event, and
calls out to the speech device / highlighters are recorded as effects.
Utterances are numbered by a generation counter so that a device callback
can be labelled with the utterance it belongs to; the handlers themselves
ignore that label, exactly as the source's `onend`/`onerror` closures do. -/

/-- The `TTSState` union type. -/
inductive TTSState where
  | idle
  | detecting
  | speaking
  | cooldown
deriving DecidableEq, Repr

/-- The slice of `TTSSettings` the coordinator logic reads. -/
structure TTSSettings where
  enabled : Bool
  readMoveFirst : Bool
  readExplanation : Bool
deriving DecidableEq, Repr

/-- `DEFAULT_SETTINGS`. -/
def defaultSettings : TTSSettings :=
  { enabled := true, readMoveFirst := true, readExplanation := true }

/-- The coordinator's module-level state in `content.ts`.  Timer handles are
modelled by whether the timer is pending; `generation` counts the utterances
created so far (the current utterance, when speaking, is the last one). -/
structure Coord where
  state : TTSState
  detectTimer : Bool
  cooldownTimer : Bool
  collectedTriggers : List Nat
  settings : TTSSettings
  generation : Nat
  keepAlive : Bool
  currentRawText : List Char
  currentProcessedText : List Char
  currentMoveRanges : List MoveRange
deriving DecidableEq, Repr

/-- The initial coordinator state under a given settings snapshot. -/
def initCoord (st : TTSSettings) : Coord :=
  { state := TTSState.idle, detectTimer := false, cooldownTimer := false,
    collectedTriggers := [], settings := st, generation := 0, keepAlive := false,
    currentRawText := [], currentProcessedText := [], currentMoveRanges := [] }

/-- Observable calls out of the coordinator. -/
inductive Effect where
  | extractText
  | speakDev (gen : Nat) (text : List Char)
  | cancelDev
  | clearHl
deriving DecidableEq, Repr

/-- Events delivered to the coordinator by its collaborators.  A
`detectFire` carries the DOM facts the handler would read at that moment
(indicator visibility, extracted move notation and explanation, empty when
absent); a `speechEnd` carries the generation of the utterance whose
`onend`/`onerror` closure fired. -/
inductive CoordEvent where
  | trigger (id : Nat)
  | detectFire (visible : Bool) (moveText explText : List Char)
  | cooldownFire
  | speechEnd (gen : Nat)
  | speakNow (text : List Char)
deriving DecidableEq, Repr

/-- `onWrongMoveDetected`: ignored while speaking or in cooldown; otherwise
collect the trigger and (re)arm the detection timer. -/
def onWrongMoveDetected (s : Coord) (id : Nat) : Coord × List Effect :=
  if s.state = TTSState.speaking ∨ s.state = TTSState.cooldown then (s, [])
  else
    let s1 := { s with collectedTriggers := s.collectedTriggers ++ [id] }
    if s1.state = TTSState.idle then
      ({ s1 with state := TTSState.detecting, detectTimer := true }, [])
    else ({ s1 with detectTimer := true }, [])

/-- `doSpeak` (with the subsequent `doSpeakProcessed`): bail out to idle when
disabled or when the text is blank, otherwise process the text, create the
next utterance generation, start the keep-alive tick and call the device. -/
def doSpeak (s : Coord) (text : List Char) : Coord × List Effect :=
  if s.settings.enabled = false ∨ jsTrim text = [] then
    ({ s with state := TTSState.idle }, [])
  else
    let cleaned := jsTrim text
    let pr := processTextWithMoveMap cleaned
    ({ s with state := TTSState.speaking,
              currentMoveRanges := pr.moveRanges,
              currentRawText := cleaned,
              currentProcessedText := pr.processed,
              generation := s.generation + 1,
              keepAlive := true },
     [Effect.speakDev (s.generation + 1) pr.processed])

/-- `onDetectWindowClosed`: re-verify the indicator, run the extraction pass
once, and either return to idle or speak the joined parts. -/
def onDetectWindowClosed (s : Coord) (visible : Bool) (moveText explText : List Char) :
    Coord × List Effect :=
  let s0 := { s with detectTimer := false }
  if visible = false then
    ({ s0 with collectedTriggers := [], state := TTSState.idle }, [])
  else
    let s1 := { s0 with collectedTriggers := [] }
    let parts : List (List Char) :=
      (if s.settings.readMoveFirst ∧ moveText ≠ [] then [moveText] else [])
      ++ (if s.settings.readExplanation ∧ explText ≠ [] then [explText] else [])
    if parts = [] then ({ s1 with state := TTSState.idle }, [Effect.extractText])
    else
      let raw := joinSep (toL ". ") parts
      ((doSpeak s1 raw).1, Effect.extractText :: (doSpeak s1 raw).2)

/-- `onSpeechEnd`: clear highlighting, stop the keep-alive tick and enter
cooldown.  The source's `onend`/`onerror` closures call this unconditionally
— there is no check that the callback belongs to the current utterance. -/
def onSpeechEnd (s : Coord) : Coord × List Effect :=
  ({ s with keepAlive := false, state := TTSState.cooldown, cooldownTimer := true },
   [Effect.clearHl])

/-- `resetToIdle`: clear both timers, collected triggers and the keep-alive. -/
def resetToIdle (s : Coord) : Coord :=
  { s with detectTimer := false, cooldownTimer := false, keepAlive := false,
           collectedTriggers := [], state := TTSState.idle }

/-- The public `speak` entry point (used by `TEST_SPEAK`, `testNotation` and
the debug API; `readCurrentExplanation` performs the same cancel/reset/speak
sequence): cancel the device, clear highlighting, hard-reset, then speak. -/
def speakEntry (s : Coord) (text : List Char) : Coord × List Effect :=
  ((doSpeak (resetToIdle s) text).1,
   Effect.cancelDev :: Effect.clearHl :: (doSpeak (resetToIdle s) text).2)

/-- One event dispatched to the coordinator.  A timer-fire event is a no-op
when its timer is not pending (a cleared timeout never runs). -/
def step (s : Coord) (e : CoordEvent) : Coord × List Effect :=
  match e with
  | CoordEvent.trigger id => onWrongMoveDetected s id
  | CoordEvent.detectFire v mT eT =>
    if s.detectTimer then onDetectWindowClosed s v mT eT else (s, [])
  | CoordEvent.cooldownFire =>
    if s.cooldownTimer then
      ({ s with cooldownTimer := false, state := TTSState.idle }, [])
    else (s, [])
  | CoordEvent.speechEnd _ => onSpeechEnd s
  | CoordEvent.speakNow t => speakEntry s t

/-- Run a sequence of events, accumulating the effects in order. -/
def run (s : Coord) : List CoordEvent → Coord × List Effect
  | [] => (s, [])
  | e :: es =>
    ((run (step s e).1 es).1, (step s e).2 ++ (run (step s e).1 es).2)

/-- Number of `extractText` effects in a list. -/
def countExtract (effs : List Effect) : Nat :=
  effs.countP (fun e => e = Effect.extractText)

/-- Number of device `speak` calls in a list of effects. -/
def countSpeak (effs : List Effect) : Nat :=
  effs.countP (fun e => match e with | Effect.speakDev _ _ => true | _ => false)

/-! ### Component-wise SAN tokens

To state the parser-correctness claim we describe a SAN token by its
components and render it to text; the claim then compares `parseMove` of the
rendered token with the move the components denote. -/

/-- The check-suffix of a token. -/
inductive CheckKind where
  | plain
  | check
  | double
  | mate
deriving DecidableEq, Repr

/-- The characters a check-suffix contributes to the token. -/
def checkKindStr : CheckKind → List Char
  | CheckKind.plain => []
  | CheckKind.check => ['+']
  | CheckKind.double => ['+', '+']
  | CheckKind.mate => ['#']

/-- The three suffix flags a check-suffix denotes. -/
def checkFlagsOf : CheckKind → Bool × Bool × Bool
  | CheckKind.plain => (false, false, false)
  | CheckKind.check => (true, false, false)
  | CheckKind.double => (false, true, false)
  | CheckKind.mate => (false, false, true)

/-- Components of a (non-castling) SAN token. -/
structure SANParts where
  piece : Option Char
  fromFile : Option Char
  fromRank : Option Char
  cap : Bool
  d1 : Char
  d2 : Char
  promo : Option Char
  ann : List Char
  ck : CheckKind
deriving DecidableEq, Repr

/-- Well-formedness of the components: each captured character belongs to
its class, and annotations are runs of `!`/`?`. -/
def ValidParts (c : SANParts) : Prop :=
  (∀ p, c.piece = some p → isPieceCharB p = true)
  ∧ (∀ f, c.fromFile = some f → isFileChar f = true)
  ∧ (∀ r, c.fromRank = some r → isRankChar r = true)
  ∧ isFileChar c.d1 = true
  ∧ isRankChar c.d2 = true
  ∧ (∀ p, c.promo = some p → isPromoPieceB p = true)
  ∧ (∀ a ∈ c.ann, isAnnotGlyph a = true)

/-- The optional leading part of the core (piece, disambiguation, capture). -/
def corePre (c : SANParts) : List Char :=
  c.piece.toList ++ c.fromFile.toList ++ c.fromRank.toList
  ++ (if c.cap then ['x'] else [])

/-- The promotion characters of the token (`=` plus the piece letter). -/
def promoStr : Option Char → List Char
  | some p => ['=', p]
  | none => []

/-- The token's core through the promotion marker. -/
def coreWithPromo (c : SANParts) : List Char :=
  corePre c ++ [c.d1, c.d2] ++ promoStr c.promo

/-- Render the components to a token:
piece?/file?/rank?/capture?/destination/promotion?, a run of annotation
glyphs, and a final check suffix. -/
def renderToken (c : SANParts) : List Char :=
  coreWithPromo c ++ c.ann ++ checkKindStr c.ck

/-- The `ParsedMove` a well-formed component list denotes. -/
def expectedMove (c : SANParts) : ParsedMove :=
  { piece := c.piece, fromFile := c.fromFile, fromRank := c.fromRank,
    isCapture := c.cap, toSquare := [c.d1, c.d2], promotionPiece := c.promo,
    isCheck := (checkFlagsOf c.ck).1, isDoubleCheck := (checkFlagsOf c.ck).2.1,
    isCheckmate := (checkFlagsOf c.ck).2.2,
    isCastleKingside := false, isCastleQueenside := false }

/-! ### Predicates used by the proofs -/

/-- A list ending in the two-character suffix `++`. -/
def EndsPP (cs : List Char) : Prop :=
  ∃ u, cs = u ++ ['+', '+']

/-- The matches reported by the scanner, relative to a lower bound `lo`:
indices are nondecreasing from `lo`, each match is nonempty, in bounds, and
really occupies its reported span of the text. -/
inductive Coherent (text : List Char) : Nat → List (Nat × List Char) → Prop where
  | nil : ∀ lo, Coherent text lo []
  | cons : ∀ lo i m rest, lo ≤ i → m ≠ [] → i + m.length ≤ text.length →
      sliceL text i (i + m.length) = m →
      Coherent text (i + m.length) rest → Coherent text lo ((i, m) :: rest)

/-- The per-range property claimed for `processTextWithMoveMap`: a nonempty
in-bounds span of the output whose text is the spoken phrase of some
non-castling move keyed to that move's destination square. -/
def RangeProps (res : List Char) (rg : MoveRange) : Prop :=
  rg.charStart < rg.charEnd ∧ rg.charEnd ≤ res.length
  ∧ ∃ pm : ParsedMove, pm.isCastleKingside = false ∧ pm.isCastleQueenside = false
      ∧ sliceL res rg.charStart rg.charEnd = moveToSpeech pm ∧ rg.square = pm.toSquare

/-- Invariant carried through the `processTextWithMoveMap` loop. -/
def RangeInv (res : List Char) (rngs : List MoveRange) : Prop :=
  (∀ rg ∈ rngs, RangeProps res rg)
  ∧ List.Pairwise (fun a b => a.charEnd ≤ b.charStart) rngs

/-! ## Theorems -/

/-! ### Coordinator lemmas -/

theorem run_append (b : List CoordEvent) :
    ∀ (a : List CoordEvent) (s : Coord),
      run s (a ++ b)
        = ((run (run s a).1 b).1, (run s a).2 ++ (run (run s a).1 b).2) := by
  intro a
  induction a with
  | nil => intro s; simp [run]
  | cons e es ih =>
    intro s
    simp only [List.cons_append, run, List.append_eq]
    rw [ih (step s e).1]
    simp [List.append_assoc]

theorem trigger_detecting (id : Nat) (s : Coord)
    (h : s.state = TTSState.detecting) :
    step s (CoordEvent.trigger id)
      = ({ s with collectedTriggers := s.collectedTriggers ++ [id],
                  detectTimer := true }, []) := by
  simp [step, onWrongMoveDetected, h]

theorem run_triggers (ids : List Nat) :
    ∀ (s : Coord), s.state = TTSState.detecting → s.detectTimer = true →
      ∃ s2, run s (ids.map CoordEvent.trigger) = (s2, [])
        ∧ s2.state = TTSState.detecting
        ∧ s2.detectTimer = true
        ∧ s2.settings = s.settings := by
  induction ids with
  | nil =>
    intro s h ht
    exact ⟨s, by simp [run], h, ht, rfl⟩
  | cons i is ih =>
    intro s h _
    have hstep := trigger_detecting i s h
    obtain ⟨s2, hrun, h1, h2, h4⟩ :=
      ih { s with collectedTriggers := s.collectedTriggers ++ [i], detectTimer := true }
        (by simp [h]) (by simp)
    refine ⟨s2, ?_, h1, h2, by simpa using h4⟩
    simp [run, hstep, hrun]

theorem doSpeak_effects (s : Coord) (t : List Char) :
    (doSpeak s t).2 = [] ∨ ∃ g p, (doSpeak s t).2 = [Effect.speakDev g p] := by
  unfold doSpeak
  split
  · exact Or.inl rfl
  · exact Or.inr ⟨_, _, rfl⟩

theorem detectFire_effects (s : Coord) (mT eT : List Char) :
    ∃ tail, (onDetectWindowClosed s true mT eT).2 = Effect.extractText :: tail
      ∧ (tail = [] ∨ ∃ g p, tail = [Effect.speakDev g p]) := by
  unfold onDetectWindowClosed
  simp only [if_neg (show ¬ (true = false) by decide)]
  by_cases h1 : s.settings.readMoveFirst = true ∧ mT ≠ []
  · by_cases h2 : s.settings.readExplanation = true ∧ eT ≠ []
    · rw [if_pos h1, if_pos h2]
      exact ⟨_, by rw [if_neg (by simp)], doSpeak_effects _ _⟩
    · rw [if_pos h1, if_neg h2]
      exact ⟨_, by rw [if_neg (by simp)], doSpeak_effects _ _⟩
  · by_cases h2 : s.settings.readExplanation = true ∧ eT ≠ []
    · rw [if_neg h1, if_pos h2]
      exact ⟨_, by rw [if_neg (by simp)], doSpeak_effects _ _⟩
    · rw [if_neg h1, if_neg h2]
      exact ⟨[], by rw [if_pos (by simp)], Or.inl rfl⟩

theorem detectFire_counts (s : Coord) (mT eT : List Char) :
    countExtract (onDetectWindowClosed s true mT eT).2 = 1
    ∧ countSpeak (onDetectWindowClosed s true mT eT).2 ≤ 1 := by
  obtain ⟨tail, heq, htail⟩ := detectFire_effects s mT eT
  rw [heq]
  rcases htail with h | ⟨g, p, h⟩ <;> subst h <;>
    constructor <;> simp [countExtract, countSpeak]

/-- C1: a trigger arriving while the coordinator is `speaking` or in
`cooldown` leaves the state (hence any pending coalescing timer) untouched
and produces no effects; and a burst of triggers that all arrive before the
detection window fires yields exactly one text-extraction pass and at most
one device `speak` call. -/
theorem claim_C1 :
    (∀ (s : Coord) (i : Nat),
        s.state = TTSState.speaking ∨ s.state = TTSState.cooldown →
        step s (CoordEvent.trigger i) = (s, []))
    ∧ (∀ (st : TTSSettings) (ids : List Nat) (mT eT : List Char), ids ≠ [] →
        countExtract (run (initCoord st)
          (ids.map CoordEvent.trigger ++ [CoordEvent.detectFire true mT eT])).2 = 1
        ∧ countSpeak (run (initCoord st)
          (ids.map CoordEvent.trigger ++ [CoordEvent.detectFire true mT eT])).2 ≤ 1) := by
  constructor
  · intro s i h
    simp [step, onWrongMoveDetected, h]
  · intro st ids mT eT hne
    rcases ids with _ | ⟨i, is⟩
    · exact absurd rfl hne
    · have h0state : (step (initCoord st) (CoordEvent.trigger i)).1.state
          = TTSState.detecting := by
        simp [step, onWrongMoveDetected, initCoord]
      have h0dt : (step (initCoord st) (CoordEvent.trigger i)).1.detectTimer = true := by
        simp [step, onWrongMoveDetected, initCoord]
      have h0effs : (step (initCoord st) (CoordEvent.trigger i)).2 = [] := by
        simp [step, onWrongMoveDetected, initCoord]
      obtain ⟨s2, hrun, hst, hdt, _⟩ :=
        run_triggers is (step (initCoord st) (CoordEvent.trigger i)).1 h0state h0dt
      have htrig :
          run (initCoord st) ((i :: is).map CoordEvent.trigger) = (s2, []) := by
        simp [run, hrun, h0effs]
      rw [run_append]
      rw [htrig]
      have hlast :
          run s2 [CoordEvent.detectFire true mT eT]
            = ((onDetectWindowClosed s2 true mT eT).1,
               (onDetectWindowClosed s2 true mT eT).2) := by
        simp [run, step, hdt]
      rw [hlast]
      have hc := detectFire_counts s2 mT eT
      constructor
      · simpa [countExtract] using hc.1
      · simpa [countSpeak] using hc.2

/-- Witness for C1 at a concrete burst of three triggers. -/
theorem claim_C1_witness :
    (([0, 1, 2] : List Nat) ≠ [])
    ∧ (countExtract (run (initCoord defaultSettings)
        (([0, 1, 2] : List Nat).map CoordEvent.trigger
          ++ [CoordEvent.detectFire true [] (toL "Bad move")])).2 = 1
      ∧ countSpeak (run (initCoord defaultSettings)
        (([0, 1, 2] : List Nat).map CoordEvent.trigger
          ++ [CoordEvent.detectFire true [] (toL "Bad move")])).2 ≤ 1) :=
  ⟨by decide, claim_C1.2 defaultSettings [0, 1, 2] [] (toL "Bad move") (by decide)⟩

/-- C2 (code defect): the `onend`/`onerror` closures call `onSpeechEnd`
without any staleness check.  In the trace below utterance 1 is superseded by
the manual utterance 2, and the late end callback of utterance 1 still
clears highlighting, cancels the keep-alive belonging to utterance 2 and
resets the state to `cooldown` while utterance 2 is still playing. -/
theorem claim_C2 :
    (run (initCoord defaultSettings)
      [CoordEvent.trigger 0,
       CoordEvent.detectFire true [] (toL "Bad move"),
       CoordEvent.speakNow (toL "Try again"),
       CoordEvent.speechEnd 1]).1.generation = 2
    ∧ (run (initCoord defaultSettings)
        [CoordEvent.trigger 0,
         CoordEvent.detectFire true [] (toL "Bad move"),
         CoordEvent.speakNow (toL "Try again"),
         CoordEvent.speechEnd 1]).1.state = TTSState.cooldown
    ∧ (run (initCoord defaultSettings)
        [CoordEvent.trigger 0,
         CoordEvent.detectFire true [] (toL "Bad move"),
         CoordEvent.speakNow (toL "Try again"),
         CoordEvent.speechEnd 1]).1.keepAlive = false
    ∧ (run (initCoord defaultSettings)
        [CoordEvent.trigger 0,
         CoordEvent.detectFire true [] (toL "Bad move"),
         CoordEvent.speakNow (toL "Try again"),
         CoordEvent.speechEnd 1]).2
      = [Effect.extractText, Effect.speakDev 1 (toL "Bad move"),
         Effect.cancelDev, Effect.clearHl, Effect.speakDev 2 (toL "Try again"),
         Effect.clearHl] := by
  refine ⟨?_, ?_, ?_, ?_⟩ <;> decide

/-- Counterexample to C3 as stated: a manual speak request does not always
produce a device `speak` call — a blank text, or a disabled settings
snapshot, yields none. -/
theorem claim_C3_cex :
    countSpeak (step (initCoord defaultSettings) (CoordEvent.speakNow [])).2 = 0
    ∧ countSpeak (step (initCoord { defaultSettings with enabled := false })
        (CoordEvent.speakNow (toL "Nf3"))).2 = 0 := by
  refine ⟨?_, ?_⟩ <;> decide

/-- C3 (amended): whenever narration is enabled and the requested text is not
blank, a manual speak request — from any coordinator state — first cancels
the device and clears highlighting, clears both timers and the keep-alive,
and issues exactly one `speak` call carrying the processed new text. -/
theorem claim_C3 (s : Coord) (t : List Char)
    (hen : s.settings.enabled = true) (ht : jsTrim t ≠ []) :
    step s (CoordEvent.speakNow t)
      = ({ resetToIdle s with
             state := TTSState.speaking,
             currentMoveRanges := (processTextWithMoveMap (jsTrim t)).moveRanges,
             currentRawText := jsTrim t,
             currentProcessedText := (processTextWithMoveMap (jsTrim t)).processed,
             generation := s.generation + 1,
             keepAlive := true },
         [Effect.cancelDev, Effect.clearHl,
          Effect.speakDev (s.generation + 1)
            ((processTextWithMoveMap (jsTrim t)).processed)]) := by
  simp [step, speakEntry, doSpeak, resetToIdle, hen, ht]

/-- Witness for C3 from a cooldown state. -/
theorem claim_C3_witness :
    ({ initCoord defaultSettings with
         state := TTSState.cooldown, cooldownTimer := true }.settings.enabled = true)
    ∧ jsTrim (toL "Nf3") ≠ []
    ∧ step { initCoord defaultSettings with
               state := TTSState.cooldown, cooldownTimer := true }
        (CoordEvent.speakNow (toL "Nf3"))
      = ({ resetToIdle { initCoord defaultSettings with
                           state := TTSState.cooldown, cooldownTimer := true } with
             state := TTSState.speaking,
             currentMoveRanges := (processTextWithMoveMap (jsTrim (toL "Nf3"))).moveRanges,
             currentRawText := jsTrim (toL "Nf3"),
             currentProcessedText := (processTextWithMoveMap (jsTrim (toL "Nf3"))).processed,
             generation := 1,
             keepAlive := true },
         [Effect.cancelDev, Effect.clearHl,
          Effect.speakDev 1 ((processTextWithMoveMap (jsTrim (toL "Nf3"))).processed)]) :=
  ⟨rfl, by decide,
    claim_C3 { initCoord defaultSettings with
                 state := TTSState.cooldown, cooldownTimer := true }
      (toL "Nf3") rfl (by decide)⟩

/-! ### Suffix-flag lemmas (C6) -/

theorem detectSuffix_excl (cs : List Char) :
    ((detectSuffix cs).1.1 = true →
      (detectSuffix cs).1.2.1 = false ∧ (detectSuffix cs).1.2.2 = false)
    ∧ ((detectSuffix cs).1.2.1 = true → (detectSuffix cs).1.2.2 = false)
    ∧ ((detectSuffix cs).1.2.2 = true →
      (detectSuffix cs).1.1 = false ∧ (detectSuffix cs).1.2.1 = false) := by
  unfold detectSuffix
  rcases hrev : cs.reverse with _ | ⟨c1, r1⟩
  · simp
  · rcases r1 with _ | ⟨c2, r2⟩ <;> dsimp only <;> split <;> (try split) <;> (try split) <;> simp

/-- The parser forwards the three suffix flags from `detectSuffix` applied
to the token after trimming and move-number stripping, in every branch. -/
theorem parseMove_flags (t : List Char) (pm : ParsedMove)
    (h : parseMove t = some pm) :
    pm.isCheck = (detectSuffix (stripMoveNum (jsTrim t))).1.1
    ∧ pm.isDoubleCheck = (detectSuffix (stripMoveNum (jsTrim t))).1.2.1
    ∧ pm.isCheckmate = (detectSuffix (stripMoveNum (jsTrim t))).1.2.2 := by
  unfold parseMove at h
  split at h
  · exact absurd h (by simp)
  · dsimp only at h
    split at h
    · obtain rfl := Option.some.inj h
      exact ⟨rfl, rfl, rfl⟩
    · split at h
      · obtain rfl := Option.some.inj h
        exact ⟨rfl, rfl, rfl⟩
      · split at h
        · exact absurd h (by simp)
        · obtain rfl := Option.some.inj h
          exact ⟨rfl, rfl, rfl⟩

theorem dropWhile_endsPP (p : Char → Bool) (hp : p '+' = false) (cs : List Char)
    (h : EndsPP cs) : EndsPP (cs.dropWhile p) := by
  obtain ⟨u, rfl⟩ := h
  rw [List.dropWhile_append]
  split
  · refine ⟨[], ?_⟩
    simp [List.dropWhile, hp]
  · exact ⟨_, rfl⟩

theorem jsTrim_endsPP (cs : List Char) (h : EndsPP cs) : EndsPP (jsTrim cs) := by
  obtain ⟨u, hu⟩ := dropWhile_endsPP jsWs (by decide) cs h
  unfold jsTrim
  rw [hu]
  refine ⟨u, ?_⟩
  have hrw : (u ++ ['+', '+']).reverse.dropWhile jsWs = (u ++ ['+', '+']).reverse := by
    rw [List.reverse_append]
    simp [List.dropWhile, jsWs]
  rw [hrw]
  simp

theorem stripMoveNum_endsPP (cs : List Char) (h : EndsPP cs) :
    EndsPP (stripMoveNum cs) := by
  unfold stripMoveNum
  dsimp only
  split
  · exact h
  · split
    · exact h
    · exact dropWhile_endsPP _ (by decide) _
        (dropWhile_endsPP _ (by decide) _ (dropWhile_endsPP _ (by decide) _ h))

theorem detectSuffix_endsPP (cs : List Char) (h : EndsPP cs) :
    (detectSuffix cs).1 = (false, true, false) := by
  obtain ⟨u, rfl⟩ := h
  unfold detectSuffix
  rw [List.reverse_append]
  simp

/-- C6: the check suffix is detected with `#` before `++` before `+`, so a
token ending in `++` that parses at all yields `isDoubleCheck` and never
`isCheck`; and every `ParsedMove` produced by `parseMove` has at most one of
the three suffix flags set. -/
theorem claim_C6 :
    (∀ (t : List Char) (pm : ParsedMove), EndsPP t →
        parseMove t = some pm → pm.isDoubleCheck = true ∧ pm.isCheck = false)
    ∧ (∀ (t : List Char) (pm : ParsedMove), parseMove t = some pm →
        (pm.isCheck = true → pm.isDoubleCheck = false ∧ pm.isCheckmate = false)
        ∧ (pm.isDoubleCheck = true → pm.isCheckmate = false)
        ∧ (pm.isCheckmate = true → pm.isCheck = false ∧ pm.isDoubleCheck = false)) := by
  constructor
  · intro t pm hpp h
    obtain ⟨h1, h2, _⟩ := parseMove_flags t pm h
    have hflags := detectSuffix_endsPP _ (stripMoveNum_endsPP _ (jsTrim_endsPP _ hpp))
    rw [h1, h2, hflags]
    exact ⟨rfl, rfl⟩
  · intro t pm h
    obtain ⟨h1, h2, h3⟩ := parseMove_flags t pm h
    have he := detectSuffix_excl (stripMoveNum (jsTrim t))
    rw [h1, h2, h3]
    exact he

/-- Witness for C6 at the token `Nf3++`. -/
theorem claim_C6_witness :
    EndsPP (toL "Nf3++")
    ∧ parseMove (toL "Nf3++")
        = some { piece := some 'N', fromFile := none, fromRank := none,
                 isCapture := false, toSquare := ['f', '3'], promotionPiece := none,
                 isCheck := false, isDoubleCheck := true, isCheckmate := false,
                 isCastleKingside := false, isCastleQueenside := false }
    ∧ ({ piece := some 'N', fromFile := none, fromRank := none,
         isCapture := false, toSquare := ['f', '3'], promotionPiece := none,
         isCheck := false, isDoubleCheck := true, isCheckmate := false,
         isCastleKingside := false, isCastleQueenside := false
         : ParsedMove }).isDoubleCheck = true
    ∧ ({ piece := some 'N', fromFile := none, fromRank := none,
         isCapture := false, toSquare := ['f', '3'], promotionPiece := none,
         isCheck := false, isDoubleCheck := true, isCheckmate := false,
         isCastleKingside := false, isCastleQueenside := false
         : ParsedMove }).isCheck = false :=
  ⟨⟨toL "Nf3", by decide⟩, by decide,
   (claim_C6.1 (toL "Nf3++") _ ⟨toL "Nf3", by decide⟩ (by decide)).1,
   (claim_C6.1 (toL "Nf3++") _ ⟨toL "Nf3", by decide⟩ (by decide)).2⟩

/-! ### Castling speech lemmas (C7) -/

theorem castleQ_speech (pm : ParsedMove) (h : pm.isCastleQueenside = true) :
    moveToSpeech pm = joinSep [' '] ([toL "Queenside castle"] ++ checkParts pm) := by
  unfold moveToSpeech
  rw [if_pos h]

theorem castleK_speech (pm : ParsedMove) (h1 : pm.isCastleQueenside = false)
    (h2 : pm.isCastleKingside = true) :
    moveToSpeech pm = joinSep [' '] ([toL "Kingside castle"] ++ checkParts pm) := by
  unfold moveToSpeech
  rw [if_neg (by simp [h1]), if_pos h2]

theorem checkParts_congr (pm qm : ParsedMove) (hc : pm.isCheck = qm.isCheck)
    (hd : pm.isDoubleCheck = qm.isDoubleCheck) (hm : pm.isCheckmate = qm.isCheckmate) :
    checkParts pm = checkParts qm := by
  unfold checkParts
  rw [hc, hd, hm]

/-- Counterexample to C7 as stated: `parseMove` keeps a check suffix on a
castling token, and `moveToSpeech` appends the check word after the castling
phrase — so the result is not exactly `Kingside castle`. -/
theorem claim_C7_cex :
    parseMove (toL "O-O+")
      = some { piece := none, fromFile := none, fromRank := none,
               isCapture := false, toSquare := toL "g8", promotionPiece := none,
               isCheck := true, isDoubleCheck := false, isCheckmate := false,
               isCastleKingside := true, isCastleQueenside := false }
    ∧ moveToSpeech { piece := none, fromFile := none, fromRank := none,
                     isCapture := false, toSquare := toL "g8", promotionPiece := none,
                     isCheck := true, isDoubleCheck := false, isCheckmate := false,
                     isCastleKingside := true, isCastleQueenside := false }
        = toL "Kingside castle check"
    ∧ moveToSpeech { piece := none, fromFile := none, fromRank := none,
                     isCapture := false, toSquare := toL "g8", promotionPiece := none,
                     isCheck := true, isDoubleCheck := false, isCheckmate := false,
                     isCastleKingside := true, isCastleQueenside := false }
        ≠ toL "Kingside castle" := by
  refine ⟨?_, ?_, ?_⟩ <;> decide

/-- C7 (amended): for a castling `ParsedMove`, `moveToSpeech` short-circuits
past the piece/disambiguation/verb/destination/promotion steps — it reads
none of `piece`, `toSquare`, `fromFile`, `fromRank`, `promotionPiece` — and
returns the castling phrase followed only by the check-suffix word; with no
check flags set the result is exactly the bare phrase.  The placeholder
destination square is likewise never recorded as a move range. -/
theorem claim_C7 :
    (∀ pm : ParsedMove, pm.isCastleQueenside = true →
        moveToSpeech pm = joinSep [' '] ([toL "Queenside castle"] ++ checkParts pm))
    ∧ (∀ pm : ParsedMove, pm.isCastleQueenside = false → pm.isCastleKingside = true →
        moveToSpeech pm = joinSep [' '] ([toL "Kingside castle"] ++ checkParts pm))
    ∧ (∀ pm : ParsedMove, pm.isCastleQueenside = true →
        pm.isCheck = false → pm.isDoubleCheck = false → pm.isCheckmate = false →
        moveToSpeech pm = toL "Queenside castle")
    ∧ (∀ pm : ParsedMove, pm.isCastleQueenside = false → pm.isCastleKingside = true →
        pm.isCheck = false → pm.isDoubleCheck = false → pm.isCheckmate = false →
        moveToSpeech pm = toL "Kingside castle")
    ∧ (∀ pm qm : ParsedMove,
        pm.isCastleKingside = true ∨ pm.isCastleQueenside = true →
        pm.isCastleKingside = qm.isCastleKingside →
        pm.isCastleQueenside = qm.isCastleQueenside →
        pm.isCheck = qm.isCheck → pm.isDoubleCheck = qm.isDoubleCheck →
        pm.isCheckmate = qm.isCheckmate →
        moveToSpeech pm = moveToSpeech qm)
    ∧ (∀ (pm : ParsedMove) (a b : Nat),
        pm.isCastleKingside = true ∨ pm.isCastleQueenside = true →
        rangeEntry pm a b = []) := by
  refine ⟨?_, ?_, ?_, ?_, ?_, ?_⟩
  · exact castleQ_speech
  · exact castleK_speech
  · intro pm hq hc hd hm
    rw [castleQ_speech pm hq]
    simp [checkParts, hc, hd, hm, joinSep]
  · intro pm hq hk hc hd hm
    rw [castleK_speech pm hq hk]
    simp [checkParts, hc, hd, hm, joinSep]
  · intro pm qm hcast hk hq hc hd hm
    cases hval : pm.isCastleQueenside with
    | true =>
      rw [castleQ_speech pm hval, castleQ_speech qm (hq ▸ hval),
          checkParts_congr pm qm hc hd hm]
    | false =>
      have hck : pm.isCastleKingside = true := by
        rcases hcast with h | h
        · exact h
        · rw [h] at hval; cases hval
      rw [castleK_speech pm hval hck, castleK_speech qm (hq ▸ hval) (hk ▸ hck),
          checkParts_congr pm qm hc hd hm]
  · intro pm a b hcast
    unfold rangeEntry
    rcases hcast with h | h <;> simp [h]

/-- Witness for C7 at the parsed `O-O-O` move. -/
theorem claim_C7_witness :
    ({ piece := none, fromFile := none, fromRank := none,
       isCapture := false, toSquare := toL "g8", promotionPiece := none,
       isCheck := false, isDoubleCheck := false, isCheckmate := false,
       isCastleKingside := false, isCastleQueenside := true
       : ParsedMove }).isCastleQueenside = true
    ∧ moveToSpeech { piece := none, fromFile := none, fromRank := none,
                     isCapture := false, toSquare := toL "g8", promotionPiece := none,
                     isCheck := false, isDoubleCheck := false, isCheckmate := false,
                     isCastleKingside := false, isCastleQueenside := true }
        = toL "Queenside castle" :=
  ⟨rfl, claim_C7.2.2.1 _ rfl rfl rfl rfl⟩

/-! ### Scanner decomposition lemmas

Every matcher returns the consumed prefix together with the rest of its
input; these lemmas record that the two concatenate back to the input and
that the consumed part is nonempty. -/

theorem litTake_spec : ∀ (lit cs r : List Char), litTake lit cs = some r → cs = lit ++ r := by
  intro lit
  induction lit with
  | nil =>
    intro cs r h
    rcases cs with _ | ⟨c, cs2⟩
    · rw [show litTake [] [] = some [] from rfl] at h
      simp only [Option.some.injEq] at h
      subst h
      rfl
    · rw [show litTake [] (c :: cs2) = some (c :: cs2) from rfl] at h
      simp only [Option.some.injEq] at h
      subst h
      rfl
  | cons l ls ih =>
    intro cs r h
    rcases cs with _ | ⟨c, cs2⟩
    · rw [show litTake (l :: ls) [] = none from rfl] at h
      exact absurd h (by simp)
    · rw [show litTake (l :: ls) (c :: cs2)
          = if c = l then litTake ls cs2 else none from rfl] at h
      split at h
      · rename_i hc
        subst hc
        rw [List.cons_append]
        exact congrArg _ (ih cs2 r h)
      · exact absurd h (by simp)

theorem destScan_spec (cs m r : List Char) (h : destScan cs = some (m, r)) :
    cs = m ++ r ∧ m ≠ [] := by
  rcases cs with _ | ⟨a, _ | ⟨b, rest⟩⟩
  · rw [show destScan [] = none from rfl] at h
    exact absurd h (by simp)
  · rw [show destScan [a] = none from rfl] at h
    exact absurd h (by simp)
  · rw [show destScan (a :: b :: rest)
        = if isFileChar a && isRankChar b then some ([a, b], rest) else none from rfl] at h
    split at h
    · simp only [Option.some.injEq, Prod.mk.injEq] at h
      obtain ⟨rfl, rfl⟩ := h
      exact ⟨rfl, by simp⟩
    · exact absurd h (by simp)

theorem xDestScan_spec (cs m r : List Char) (h : xDestScan cs = some (m, r)) :
    cs = m ++ r ∧ m ≠ [] := by
  rcases cs with _ | ⟨c, rest⟩
  · rw [show xDestScan [] = none from rfl] at h
    exact absurd h (by simp)
  · rw [show xDestScan (c :: rest)
        = if c = 'x' then
            match destScan rest with
            | some (m, r) => some ('x' :: m, r)
            | none => destScan (c :: rest)
          else destScan (c :: rest) from rfl] at h
    split at h
    · rename_i hc
      subst hc
      cases hd : destScan rest with
      | some v =>
        obtain ⟨m0, r0⟩ := v
        rw [hd] at h
        simp only [Option.some.injEq, Prod.mk.injEq] at h
        obtain ⟨rfl, rfl⟩ := h
        obtain ⟨hrest, _⟩ := destScan_spec rest m0 r0 hd
        exact ⟨by rw [hrest]; rfl, by simp⟩
      | none =>
        rw [hd] at h
        exact destScan_spec _ m r h
    · exact destScan_spec _ m r h

theorem rankXDest_spec (cs m r : List Char) (h : rankXDest cs = some (m, r)) :
    cs = m ++ r ∧ m ≠ [] := by
  rcases cs with _ | ⟨c, rest⟩
  · rw [show rankXDest [] = none from rfl] at h
    exact absurd h (by simp)
  · rw [show rankXDest (c :: rest)
        = if isRankChar c then
            match xDestScan rest with
            | some (m, r) => some (c :: m, r)
            | none => xDestScan (c :: rest)
          else xDestScan (c :: rest) from rfl] at h
    split at h
    · cases hd : xDestScan rest with
      | some v =>
        obtain ⟨m0, r0⟩ := v
        rw [hd] at h
        simp only [Option.some.injEq, Prod.mk.injEq] at h
        obtain ⟨rfl, rfl⟩ := h
        obtain ⟨hrest, _⟩ := xDestScan_spec rest m0 r0 hd
        exact ⟨by rw [hrest]; rfl, by simp⟩
      | none =>
        rw [hd] at h
        exact xDestScan_spec _ m r h
    · exact xDestScan_spec _ m r h

theorem fileStep_spec (cs m r : List Char) (h : fileStep cs = some (m, r)) :
    cs = m ++ r ∧ m ≠ [] := by
  rcases cs with _ | ⟨c, rest⟩
  · rw [show fileStep [] = none from rfl] at h
    exact absurd h (by simp)
  · rw [show fileStep (c :: rest)
        = if isFileChar c then
            match rankXDest rest with
            | some (m, r) => some (c :: m, r)
            | none => rankXDest (c :: rest)
          else rankXDest (c :: rest) from rfl] at h
    split at h
    · cases hd : rankXDest rest with
      | some v =>
        obtain ⟨m0, r0⟩ := v
        rw [hd] at h
        simp only [Option.some.injEq, Prod.mk.injEq] at h
        obtain ⟨rfl, rfl⟩ := h
        obtain ⟨hrest, _⟩ := rankXDest_spec rest m0 r0 hd
        exact ⟨by rw [hrest]; rfl, by simp⟩
      | none =>
        rw [hd] at h
        exact rankXDest_spec _ m r h
    · exact rankXDest_spec _ m r h

theorem pieceStep_spec (cs m r : List Char) (h : pieceStep cs = some (m, r)) :
    cs = m ++ r ∧ m ≠ [] := by
  rcases cs with _ | ⟨c, rest⟩
  · rw [show pieceStep [] = none from rfl] at h
    exact absurd h (by simp)
  · rw [show pieceStep (c :: rest)
        = if isPieceCharB c then
            match fileStep rest with
            | some (m, r) => some (c :: m, r)
            | none => fileStep (c :: rest)
          else fileStep (c :: rest) from rfl] at h
    split at h
    · cases hd : fileStep rest with
      | some v =>
        obtain ⟨m0, r0⟩ := v
        rw [hd] at h
        simp only [Option.some.injEq, Prod.mk.injEq] at h
        obtain ⟨rfl, rfl⟩ := h
        obtain ⟨hrest, _⟩ := fileStep_spec rest m0 r0 hd
        exact ⟨by rw [hrest]; rfl, by simp⟩
      | none =>
        rw [hd] at h
        exact fileStep_spec _ m r h
    · exact fileStep_spec _ m r h

theorem promoScan_spec (cs : List Char) :
    (promoScan cs).1 ++ (promoScan cs).2 = cs := by
  rcases cs with _ | ⟨e, _ | ⟨p, r⟩⟩
  · rfl
  · rfl
  · rw [show promoScan (e :: p :: r)
        = if e = '=' && isPromoPieceB p then (['=', p], r) else ([], e :: p :: r)
        from rfl]
    split
    · rename_i hc
      have he : e = '=' := by
        have h1 := (Bool.and_eq_true _ _).mp hc |>.1
        simpa using h1
      subst he
      rfl
    · rfl

theorem sanScan_spec (cs m r : List Char) (h : sanScan cs = some (m, r)) :
    cs = m ++ r ∧ m ≠ [] := by
  unfold sanScan at h
  cases hp : pieceStep cs with
  | none => rw [hp] at h; exact absurd h (by simp)
  | some v =>
    obtain ⟨core, rest⟩ := v
    rw [hp] at h
    simp only [Option.some.injEq, Prod.mk.injEq] at h
    obtain ⟨rfl, rfl⟩ := h
    obtain ⟨hcs, hcore⟩ := pieceStep_spec cs core rest hp
    constructor
    · simp only [hcs, List.append_assoc, List.takeWhile_append_dropWhile, promoScan_spec]
    · simp [hcore]

theorem matchBody_spec (cs m r : List Char) (h : matchBody cs = some (m, r)) :
    cs = m ++ r ∧ m ≠ [] := by
  unfold matchBody at h
  cases h1 : litTake (toL "O-O-O") cs with
  | some r1 =>
    rw [h1] at h
    simp only [Option.some.injEq, Prod.mk.injEq] at h
    obtain ⟨rfl, rfl⟩ := h
    exact ⟨litTake_spec _ _ _ h1, by decide⟩
  | none =>
    rw [h1] at h
    cases h2 : litTake (toL "O-O") cs with
    | some r2 =>
      rw [h2] at h
      simp only [Option.some.injEq, Prod.mk.injEq] at h
      obtain ⟨rfl, rfl⟩ := h
      exact ⟨litTake_spec _ _ _ h2, by decide⟩
    | none =>
      rw [h2] at h
      cases h3 : litTake (toL "0-0-0") cs with
      | some r3 =>
        rw [h3] at h
        simp only [Option.some.injEq, Prod.mk.injEq] at h
        obtain ⟨rfl, rfl⟩ := h
        exact ⟨litTake_spec _ _ _ h3, by decide⟩
      | none =>
        rw [h3] at h
        cases h4 : litTake (toL "0-0") cs with
        | some r4 =>
          rw [h4] at h
          simp only [Option.some.injEq, Prod.mk.injEq] at h
          obtain ⟨rfl, rfl⟩ := h
          exact ⟨litTake_spec _ _ _ h4, by decide⟩
        | none =>
          rw [h4] at h
          exact sanScan_spec cs m r h

theorem matchNum_spec (cs m r : List Char) (h : matchNum cs = some (m, r)) :
    cs = m ++ r ∧ m ≠ [] := by
  unfold matchNum at h
  split at h
  · exact absurd h (by simp)
  · split at h
    · exact absurd h (by simp)
    · rename_i hds _
      cases hb : matchBody (((cs.dropWhile isDigitC).dropWhile
          (fun c => c = '.')).dropWhile jsWs) with
      | none => rw [hb] at h; exact absurd h (by simp)
      | some v =>
        obtain ⟨m0, r0⟩ := v
        rw [hb] at h
        simp only [Option.some.injEq, Prod.mk.injEq] at h
        obtain ⟨rfl, rfl⟩ := h
        obtain ⟨hbody, _⟩ := matchBody_spec _ m0 r0 hb
        constructor
        · have e1 : cs = cs.takeWhile isDigitC ++ cs.dropWhile isDigitC :=
            (List.takeWhile_append_dropWhile _ _).symm
          have e2 : cs.dropWhile isDigitC
              = (cs.dropWhile isDigitC).takeWhile (fun c => c = '.')
                ++ (cs.dropWhile isDigitC).dropWhile (fun c => c = '.') :=
            (List.takeWhile_append_dropWhile _ _).symm
          have e3 : (cs.dropWhile isDigitC).dropWhile (fun c => c = '.')
              = ((cs.dropWhile isDigitC).dropWhile (fun c => c = '.')).takeWhile jsWs
                ++ ((cs.dropWhile isDigitC).dropWhile (fun c => c = '.')).dropWhile jsWs :=
            (List.takeWhile_append_dropWhile _ _).symm
          conv_lhs => rw [e1, e2, e3, hbody]
          simp [List.append_assoc]
        · intro hcontra
          rw [List.append_eq_nil, List.append_eq_nil, List.append_eq_nil] at hcontra
          exact hds hcontra.1.1.1

theorem matchAtCore_spec (cs m r : List Char) (h : matchAtCore cs = some (m, r)) :
    cs = m ++ r ∧ m ≠ [] := by
  unfold matchAtCore at h
  cases hn : matchNum cs with
  | some v =>
    obtain ⟨m0, r0⟩ := v
    rw [hn] at h
    simp only [Option.some.injEq, Prod.mk.injEq] at h
    obtain ⟨rfl, rfl⟩ := h
    exact matchNum_spec cs m0 r0 hn
  | none =>
    rw [hn] at h
    exact matchBody_spec cs m r h

theorem scanStep_spec :
    ∀ (cs : List Char) (prev : Option Char) (k : Nat) (m r : List Char),
      scanStep prev cs = some (k, m, r) → cs.drop k = m ++ r ∧ m ≠ [] := by
  intro cs
  induction cs with
  | nil =>
    intro prev k m r h
    exact absurd h (by simp [scanStep])
  | cons c rest ih =>
    intro prev k m r h
    unfold scanStep at h
    cases hb : (if boundaryOk prev c then matchAtCore (c :: rest) else none) with
    | some v =>
      obtain ⟨m0, r0⟩ := v
      rw [hb] at h
      simp only [Option.some.injEq, Prod.mk.injEq] at h
      obtain ⟨rfl, rfl, rfl⟩ := h
      have hcore : matchAtCore (c :: rest) = some (m0, r0) := by
        by_cases hbo : boundaryOk prev c
        · rwa [if_pos hbo] at hb
        · rw [if_neg hbo] at hb; cases hb
      obtain ⟨hcs, hm⟩ := matchAtCore_spec _ _ _ hcore
      exact ⟨by simpa using hcs, hm⟩
    | none =>
      rw [hb] at h
      cases hs : scanStep (some c) rest with
      | some v =>
        obtain ⟨k0, m0, r0⟩ := v
        rw [hs] at h
        simp only [Option.some.injEq, Prod.mk.injEq] at h
        obtain ⟨rfl, rfl, rfl⟩ := h
        obtain ⟨hdrop, hm⟩ := ih (some c) k0 m0 r0 hs
        exact ⟨by simpa using hdrop, hm⟩
      | none =>
        rw [hs] at h
        cases h

/-! ### Slice algebra -/

theorem sliceL_same (text : List Char) (a : Nat) : sliceL text a a = [] := by
  simp [sliceL]

theorem sliceL_join (text : List Char) (a b c : Nat) (h1 : a ≤ b) (h2 : b ≤ c) :
    sliceL text a b ++ sliceL text b c = sliceL text a c := by
  unfold sliceL
  have hd : text.drop b = (text.drop a).drop (b - a) := by
    rw [List.drop_drop]
    congr 1
    omega
  rw [hd]
  have : c - a = (b - a) + (c - b) := by omega
  rw [this, List.take_add]

theorem sliceL_drop (text : List Char) (a b : Nat) (h : a ≤ b) :
    sliceL text a b ++ text.drop b = text.drop a := by
  unfold sliceL
  have hd : text.drop b = ((text.drop a).drop (b - a)) := by
    rw [List.drop_drop]
    congr 1
    omega
  rw [hd, List.take_append_drop]

theorem sliceL_append_left (l t : List Char) (a b : Nat) (hb : b ≤ l.length) :
    sliceL (l ++ t) a b = sliceL l a b := by
  unfold sliceL
  by_cases ha : a ≤ l.length
  · rw [List.drop_append_of_le_length ha]
    rcases le_or_lt (b - a) (l.length - a) with hle | hlt
    · rw [List.take_append_of_le_length (by simpa using hle)]
    · exact absurd hlt (by omega)
  · have hab : b - a = 0 := by omega
    simp [hab]

theorem sliceL_all (text : List Char) (b : Nat) (h : text.length ≤ b) :
    sliceL text 0 b = text := by
  unfold sliceL
  rw [List.drop_zero, Nat.sub_zero]
  exact List.take_of_length_le h

/-! ### Coherence of the match list -/

theorem scanAll_coherent (text : List Char) :
    ∀ (fuel : Nat) (prev : Option Char) (base : Nat),
      Coherent text base (scanAll fuel prev (text.drop base) base) := by
  intro fuel
  induction fuel with
  | zero => intro prev base; exact Coherent.nil _
  | succ fuel ih =>
    intro prev base
    unfold scanAll
    cases hs : scanStep prev (text.drop base) with
    | none => exact Coherent.nil _
    | some v =>
      obtain ⟨k, m, r⟩ := v
      obtain ⟨hdrop, hm⟩ := scanStep_spec _ _ _ _ _ hs
      have hdropText : text.drop (base + k) = m ++ r := by
        rw [← List.drop_drop]
        exact hdrop
      have hlen : text.length - (base + k) = m.length + r.length := by
        have := congrArg List.length hdropText
        simpa using this
      have hbound : base + k + m.length ≤ text.length := by
        rcases le_or_lt (base + k) text.length with hle | hlt
        · omega
        · exfalso
          have : text.drop (base + k) = [] := List.drop_of_length_le (by omega)
          rw [this] at hdropText
          exact hm (List.append_eq_nil.mp hdropText.symm).1
      have hslice : sliceL text (base + k) (base + k + m.length) = m := by
        unfold sliceL
        rw [hdropText]
        have : base + k + m.length - (base + k) = m.length := by omega
        rw [this, List.take_left]
      have hr : r = text.drop (base + k + m.length) := by
        have : (m ++ r).drop m.length = r := List.drop_left m r
        rw [← hdropText] at this
        rw [← this, List.drop_drop]
      refine Coherent.cons base (base + k) m _ (by omega) hm hbound hslice ?_
      rw [hr]
      exact ih _ (base + k + m.length)

theorem scanMatches_coherent (text : List Char) : Coherent text 0 (scanMatches text) := by
  have h := scanAll_coherent text (text.length + 1) none 0
  simpa [scanMatches] using h

theorem coherent_mono (text : List Char) :
    ∀ (lo lo2 : Nat) (ms : List (Nat × List Char)),
      Coherent text lo ms → lo2 ≤ lo → Coherent text lo2 ms := by
  intro lo lo2 ms h hle
  cases h with
  | nil => exact Coherent.nil _
  | cons _ i m rest hlo hm hb hs hrest =>
    exact Coherent.cons _ i m rest (by omega) hm hb hs hrest

/-! ### Loop unfolding equations -/

theorem replLoop_nil (text out : List Char) (last : Nat) :
    replLoop text [] out last = out ++ text.drop last := rfl

theorem replLoop_cons (text : List Char) (i : Nat) (m : List Char)
    (rest : List (Nat × List Char)) (out : List Char) (last : Nat) :
    replLoop text ((i, m) :: rest) out last
      = replLoop text rest (out ++ sliceL text last i ++ replaceOne m) (i + m.length) := rfl

theorem mapLoop_nil (text res : List Char) (last : Nat) (rngs : List MoveRange) :
    mapLoop text [] res last rngs
      = { processed := res ++ text.drop last, moveRanges := rngs } := rfl

theorem mapLoop_cons (text : List Char) (i : Nat) (m : List Char)
    (rest : List (Nat × List Char)) (res : List Char) (last : Nat)
    (rngs : List MoveRange) :
    mapLoop text ((i, m) :: rest) res last rngs
      = match parseMove m with
        | none => mapLoop text rest res last rngs
        | some p =>
          if moveToSpeech p = [] then mapLoop text rest res last rngs
          else
            mapLoop text rest (res ++ sliceL text last i ++ moveToSpeech p)
              (i + m.length)
              (rngs ++ rangeEntry p (res ++ sliceL text last i).length
                 (res ++ sliceL text last i ++ moveToSpeech p).length) := rfl

theorem replaceOne_none (m : List Char) (h : parseMove m = none) : replaceOne m = m := by
  unfold replaceOne
  rw [h]

theorem replaceOne_mute (m : List Char) (p : ParsedMove) (h : parseMove m = some p)
    (hs : moveToSpeech p = []) : replaceOne m = m := by
  unfold replaceOne
  rw [h]
  simp [hs]

theorem replaceOne_spoken (m : List Char) (p : ParsedMove) (h : parseMove m = some p)
    (hs : moveToSpeech p ≠ []) : replaceOne m = moveToSpeech p := by
  unfold replaceOne
  rw [h]
  simp [hs]

/-! ### The two processing loops produce the same string (C9 core) -/

theorem loops_eq (text : List Char) :
    ∀ (ms : List (Nat × List Char)) (res : List Char) (mapLast outLast : Nat)
      (rngs : List MoveRange),
      Coherent text outLast ms → mapLast ≤ outLast →
      (mapLoop text ms res mapLast rngs).processed
        = replLoop text ms (res ++ sliceL text mapLast outLast) outLast := by
  intro ms
  induction ms with
  | nil =>
    intro res mapLast outLast rngs _ hle
    rw [mapLoop_nil, replLoop_nil]
    show res ++ text.drop mapLast = res ++ sliceL text mapLast outLast ++ text.drop outLast
    rw [List.append_assoc, sliceL_drop text mapLast outLast hle]
  | cons im rest ih =>
    obtain ⟨i, m⟩ := im
    intro res mapLast outLast rngs hcoh hle
    cases hcoh with
    | cons _ _ _ _ hlo hm hbound hslice hrest =>
      rw [mapLoop_cons, replLoop_cons]
      have hBC := sliceL_join text outLast i (i + m.length) hlo (by omega)
      rw [hslice] at hBC
      have hABC := sliceL_join text mapLast outLast (i + m.length) hle (by omega)
      cases hp : parseMove m with
      | none =>
        simp only
        have hacc : res ++ sliceL text mapLast outLast ++ sliceL text outLast i
              ++ replaceOne m
            = res ++ sliceL text mapLast (i + m.length) := by
          rw [replaceOne_none m hp]
          calc res ++ sliceL text mapLast outLast ++ sliceL text outLast i ++ m
              = res ++ (sliceL text mapLast outLast
                  ++ (sliceL text outLast i ++ m)) := by
                simp [List.append_assoc]
            _ = res ++ (sliceL text mapLast outLast
                  ++ sliceL text outLast (i + m.length)) := by rw [hBC]
            _ = res ++ sliceL text mapLast (i + m.length) := by rw [hABC]
        rw [hacc]
        exact ih res mapLast (i + m.length) rngs hrest (by omega)
      | some p =>
        by_cases hs : moveToSpeech p = []
        · simp only [if_pos hs]
          have hacc : res ++ sliceL text mapLast outLast ++ sliceL text outLast i
                ++ replaceOne m
              = res ++ sliceL text mapLast (i + m.length) := by
            rw [replaceOne_mute m p hp hs]
            calc res ++ sliceL text mapLast outLast ++ sliceL text outLast i ++ m
                = res ++ (sliceL text mapLast outLast
                    ++ (sliceL text outLast i ++ m)) := by
                  simp [List.append_assoc]
              _ = res ++ (sliceL text mapLast outLast
                    ++ sliceL text outLast (i + m.length)) := by rw [hBC]
              _ = res ++ sliceL text mapLast (i + m.length) := by rw [hABC]
          rw [hacc]
          exact ih res mapLast (i + m.length) rngs hrest (by omega)
        · simp only [if_neg hs]
          have hAB := sliceL_join text mapLast outLast i hle hlo
          have hacc : res ++ sliceL text mapLast outLast ++ sliceL text outLast i
                ++ replaceOne m
              = res ++ sliceL text mapLast i ++ moveToSpeech p := by
            rw [replaceOne_spoken m p hp hs]
            calc res ++ sliceL text mapLast outLast ++ sliceL text outLast i
                  ++ moveToSpeech p
                = res ++ (sliceL text mapLast outLast ++ sliceL text outLast i)
                  ++ moveToSpeech p := by simp [List.append_assoc]
              _ = res ++ sliceL text mapLast i ++ moveToSpeech p := by rw [hAB]
          rw [hacc]
          have hnext := ih (res ++ sliceL text mapLast i ++ moveToSpeech p)
            (i + m.length) (i + m.length)
            (rngs ++ rangeEntry p (res ++ sliceL text mapLast i).length
               (res ++ sliceL text mapLast i ++ moveToSpeech p).length)
            hrest (le_refl _)
          rw [sliceL_same, List.append_nil] at hnext
          exact hnext

/-! ### Rejected matches are copied verbatim (C8 core) -/

theorem replLoop_reject (text : List Char) :
    ∀ (ms : List (Nat × List Char)) (res : List Char) (last : Nat),
      Coherent text last ms → (∀ p ∈ ms, parseMove p.2 = none) →
      replLoop text ms res last = res ++ text.drop last := by
  intro ms
  induction ms with
  | nil =>
    intro res last _ _
    rfl
  | cons im rest ih =>
    obtain ⟨i, m⟩ := im
    intro res last hcoh hrej
    cases hcoh with
    | cons _ _ _ _ hlo hm hbound hslice hrest =>
      rw [replLoop_cons]
      have hBC := sliceL_join text last i (i + m.length) hlo (by omega)
      rw [hslice] at hBC
      have hacc : res ++ sliceL text last i ++ replaceOne m
          = res ++ sliceL text last (i + m.length) := by
        rw [replaceOne_none m (hrej (i, m) (by simp)), List.append_assoc, hBC]
      rw [hacc]
      rw [ih _ _ hrest (fun p hp => hrej p (by simp [hp]))]
      rw [List.append_assoc, sliceL_drop text last (i + m.length) (by omega)]

/-! ### Range invariants (C4 / C10 core) -/

theorem sliceL_snoc (a s : List Char) :
    sliceL (a ++ s) a.length (a ++ s).length = s := by
  unfold sliceL
  rw [List.drop_left]
  rw [show (a ++ s).length - a.length = s.length from by simp]
  exact List.take_length _

theorem rangeProps_append (res t : List Char) (rg : MoveRange)
    (h : RangeProps res rg) : RangeProps (res ++ t) rg := by
  obtain ⟨h1, h2, pm, hk, hq, hsl, hsq⟩ := h
  refine ⟨h1, by simp; omega, pm, hk, hq, ?_, hsq⟩
  rw [sliceL_append_left res t _ _ h2]
  exact hsl

theorem rangeEntry_mem (p : ParsedMove) (a b : Nat) (rg : MoveRange)
    (h : rg ∈ rangeEntry p a b) :
    p.isCastleKingside = false ∧ p.isCastleQueenside = false
    ∧ rg = { charStart := a, charEnd := b, square := p.toSquare } := by
  unfold rangeEntry at h
  split at h
  · rename_i hc
    simp only [List.mem_singleton] at h
    simp only [Bool.and_eq_true, Bool.not_eq_true'] at hc
    exact ⟨hc.1, hc.2, h⟩
  · cases h

theorem rangeEntry_pairwise (p : ParsedMove) (a b : Nat) :
    List.Pairwise (fun x y : MoveRange => x.charEnd ≤ y.charStart)
      (rangeEntry p a b) := by
  unfold rangeEntry
  split <;> simp

theorem mapLoop_inv (text : List Char) :
    ∀ (ms : List (Nat × List Char)) (res : List Char) (last : Nat)
      (rngs : List MoveRange),
      Coherent text last ms → RangeInv res rngs →
      RangeInv (mapLoop text ms res last rngs).processed
               (mapLoop text ms res last rngs).moveRanges := by
  intro ms
  induction ms with
  | nil =>
    intro res last rngs _ hinv
    rw [mapLoop_nil]
    exact ⟨fun rg hrg => rangeProps_append _ _ _ (hinv.1 rg hrg), hinv.2⟩
  | cons im rest ih =>
    obtain ⟨i, m⟩ := im
    intro res last rngs hcoh hinv
    cases hcoh with
    | cons _ _ _ _ hlo hm hbound hslice hrest =>
      rw [mapLoop_cons]
      have hrest2 := coherent_mono text (i + m.length) last rest hrest (by omega)
      cases hp : parseMove m with
      | none =>
        simp only
        exact ih res last rngs hrest2 hinv
      | some p =>
        by_cases hs : moveToSpeech p = []
        · simp only [if_pos hs]
          exact ih res last rngs hrest2 hinv
        · simp only [if_neg hs]
          apply ih _ _ _ hrest
          constructor
          · intro rg hrg
            rcases List.mem_append.mp hrg with hold | hnew
            · exact rangeProps_append _ _ _
                (rangeProps_append _ _ _ (hinv.1 rg hold))
            · obtain ⟨hk, hq, rfl⟩ := rangeEntry_mem p _ _ rg hnew
              refine ⟨?_, ?_, p, hk, hq, ?_, rfl⟩
              · have : moveToSpeech p ≠ [] := hs
                have hpos : 0 < (moveToSpeech p).length := List.length_pos.mpr this
                simp only [List.length_append]
                omega
              · simp
              · exact sliceL_snoc (res ++ sliceL text last i) (moveToSpeech p)
          · rw [List.pairwise_append]
            refine ⟨hinv.2, rangeEntry_pairwise p _ _, ?_⟩
            intro a ha b hb
            obtain ⟨_, _, rfl⟩ := rangeEntry_mem p _ _ b hb
            have hend := (hinv.1 a ha).2.1
            show a.charEnd ≤ (res ++ sliceL text last i).length
            simp only [List.length_append]
            omega

/-- C4: every move range returned by `processTextWithMoveMap` is a nonempty
span within the processed string whose slice is the spoken phrase of the
(non-castling) move it records; castling moves never contribute a range. -/
theorem claim_C4 (text : List Char) (rg : MoveRange)
    (h : rg ∈ (processTextWithMoveMap text).moveRanges) :
    rg.charStart < rg.charEnd
    ∧ rg.charEnd ≤ (processTextWithMoveMap text).processed.length
    ∧ ∃ pm : ParsedMove, pm.isCastleKingside = false ∧ pm.isCastleQueenside = false
        ∧ sliceL (processTextWithMoveMap text).processed rg.charStart rg.charEnd
            = moveToSpeech pm
        ∧ rg.square = pm.toSquare := by
  by_cases ht : text = []
  · subst ht
    exact absurd h (by simp [processTextWithMoveMap])
  · have hinv := mapLoop_inv text (scanMatches text) [] 0 []
      (scanMatches_coherent text) ⟨by simp, by simp⟩
    rw [processTextWithMoveMap, if_neg ht] at h ⊢
    exact hinv.1 rg h

/-- Witness for C4 at the text `Nf3`. -/
theorem claim_C4_witness :
    ({ charStart := 0, charEnd := 13, square := ['f', '3'] } : MoveRange)
        ∈ (processTextWithMoveMap (toL "Nf3")).moveRanges
    ∧ (0 < 13
       ∧ 13 ≤ (processTextWithMoveMap (toL "Nf3")).processed.length
       ∧ ∃ pm : ParsedMove, pm.isCastleKingside = false ∧ pm.isCastleQueenside = false
           ∧ sliceL (processTextWithMoveMap (toL "Nf3")).processed 0 13 = moveToSpeech pm
           ∧ (['f', '3'] : List Char) = pm.toSquare) :=
  ⟨by decide,
   claim_C4 (toL "Nf3") { charStart := 0, charEnd := 13, square := ['f', '3'] } (by decide)⟩

/-- C8: a text in which every pattern match is rejected by the parser — in
particular one with no SAN-shaped substring at all — passes through
`processText` character for character unchanged. -/
theorem claim_C8 (text : List Char)
    (h : ∀ p ∈ scanMatches text, parseMove p.2 = none) :
    processText text = text := by
  by_cases ht : text = []
  · subst ht
    rfl
  · rw [processText, if_neg ht]
    rw [replLoop_reject text _ [] 0 (scanMatches_coherent text) h]
    simp

/-- Witness for C8 at a text with no SAN-shaped substring. -/
theorem claim_C8_witness :
    (∀ p ∈ scanMatches (toL "Great stuff?"), parseMove p.2 = none)
    ∧ processText (toL "Great stuff?") = toL "Great stuff?" :=
  ⟨by decide, claim_C8 (toL "Great stuff?") (by decide)⟩

/-- C9: `processTextWithMoveMap` performs exactly the scanning and
replacement of `processText`: its processed string equals `processText` of
the same input, for every input. -/
theorem claim_C9 (text : List Char) :
    (processTextWithMoveMap text).processed = processText text := by
  by_cases ht : text = []
  · subst ht
    rfl
  · rw [processTextWithMoveMap, processText, if_neg ht, if_neg ht]
    have h := loops_eq text (scanMatches text) [] 0 0 []
      (scanMatches_coherent text) (le_refl 0)
    rw [sliceL_same, List.append_nil] at h
    exact h

/-- C10: the ranges returned by `processTextWithMoveMap` are ordered and
pairwise disjoint — `charStart` strictly increases and each `charEnd` is at
most the next `charStart` — so each output position lies in at most one
range. -/
theorem claim_C10 (text : List Char) :
    List.Pairwise
      (fun a b : MoveRange => a.charStart < b.charStart ∧ a.charEnd ≤ b.charStart)
      (processTextWithMoveMap text).moveRanges
    ∧ ∀ rg1 ∈ (processTextWithMoveMap text).moveRanges,
        ∀ rg2 ∈ (processTextWithMoveMap text).moveRanges,
        ∀ pos : Nat, rg1.charStart ≤ pos → pos < rg1.charEnd →
          rg2.charStart ≤ pos → pos < rg2.charEnd → rg1 = rg2 := by
  have hinv : RangeInv (processTextWithMoveMap text).processed
      (processTextWithMoveMap text).moveRanges := by
    by_cases ht : text = []
    · subst ht
      exact ⟨by simp [processTextWithMoveMap], by simp [processTextWithMoveMap]⟩
    · rw [processTextWithMoveMap, if_neg ht]
      exact mapLoop_inv text (scanMatches text) [] 0 []
        (scanMatches_coherent text) ⟨by simp, by simp⟩
  constructor
  · refine List.Pairwise.imp_of_mem ?_ hinv.2
    intro a b ha hb hab
    have hlt := (hinv.1 a ha).1
    exact ⟨by omega, hab⟩
  · intro rg1 h1 rg2 h2 pos ha1 ha2 hb1 hb2
    have hsym : List.Pairwise
        (fun a b : MoveRange => a.charEnd ≤ b.charStart ∨ b.charEnd ≤ a.charStart)
        (processTextWithMoveMap text).moveRanges :=
      List.Pairwise.imp Or.inl hinv.2
    by_cases heq : rg1 = rg2
    · exact heq
    · have hdisj := hsym.forall
        (fun x y h => h.symm.imp (fun a => a) (fun a => a)) h1 h2 heq
      rcases hdisj with hd | hd <;> omega

/-- Witness for C10 at the text `e4 e5` (two ranges). -/
theorem claim_C10_witness :
    List.Pairwise
      (fun a b : MoveRange => a.charStart < b.charStart ∧ a.charEnd ≤ b.charStart)
      (processTextWithMoveMap (toL "e4 e5")).moveRanges
    ∧ ({ charStart := 0, charEnd := 11, square := ['e', '4'] } : MoveRange)
        = { charStart := 0, charEnd := 11, square := ['e', '4'] } :=
  ⟨(claim_C10 (toL "e4 e5")).1,
   (claim_C10 (toL "e4 e5")).2
     { charStart := 0, charEnd := 11, square := ['e', '4'] } (by decide)
     { charStart := 0, charEnd := 11, square := ['e', '4'] } (by decide)
     5 (by decide) (by decide) (by decide) (by decide)⟩

/-! ### Character-class facts (C5 core) -/

theorem fileChar_props (c : Char) (h : isFileChar c = true) :
    isRankChar c = false ∧ isPieceCharB c = false ∧ isPromoPieceB c = false
    ∧ (c = 'x') = False ∧ (c = '=') = False ∧ (c = '#') = False ∧ (c = '+') = False
    ∧ (c = 'O') = False ∧ (c = '0') = False ∧ (c = '.') = False
    ∧ isAnnotGlyph c = false ∧ jsWs c = false := by
  have hd : c = 'a' ∨ c = 'b' ∨ c = 'c' ∨ c = 'd' ∨ c = 'e' ∨ c = 'f' ∨ c = 'g'
      ∨ c = 'h' := by
    simpa [isFileChar, or_assoc] using h
  rcases hd with rfl | rfl | rfl | rfl | rfl | rfl | rfl | rfl <;> exact (by decide)

theorem rankChar_props (c : Char) (h : isRankChar c = true) :
    isFileChar c = false ∧ isPieceCharB c = false ∧ isPromoPieceB c = false
    ∧ (c = 'x') = False ∧ (c = '=') = False ∧ (c = '#') = False ∧ (c = '+') = False
    ∧ (c = 'O') = False ∧ (c = '0') = False ∧ (c = '.') = False
    ∧ isAnnotGlyph c = false ∧ jsWs c = false := by
  have hd : c = '1' ∨ c = '2' ∨ c = '3' ∨ c = '4' ∨ c = '5' ∨ c = '6' ∨ c = '7'
      ∨ c = '8' := by
    simpa [isRankChar, or_assoc] using h
  rcases hd with rfl | rfl | rfl | rfl | rfl | rfl | rfl | rfl <;> exact (by decide)

theorem pieceChar_props (c : Char) (h : isPieceCharB c = true) :
    isFileChar c = false ∧ isRankChar c = false ∧ isDigitC c = false
    ∧ (c = 'x') = False ∧ (c = '=') = False ∧ (c = '#') = False ∧ (c = '+') = False
    ∧ (c = 'O') = False ∧ (c = '0') = False ∧ (c = '.') = False
    ∧ isAnnotGlyph c = false ∧ jsWs c = false := by
  have hd : c = 'K' ∨ c = 'Q' ∨ c = 'R' ∨ c = 'B' ∨ c = 'N' := by
    simpa [isPieceCharB, or_assoc] using h
  rcases hd with rfl | rfl | rfl | rfl | rfl <;> exact (by decide)

theorem promoChar_props (c : Char) (h : isPromoPieceB c = true) :
    isFileChar c = false ∧ isRankChar c = false
    ∧ (c = 'x') = False ∧ (c = '=') = False ∧ (c = '#') = False ∧ (c = '+') = False
    ∧ (c = 'O') = False ∧ (c = '0') = False ∧ (c = '.') = False
    ∧ isAnnotGlyph c = false ∧ jsWs c = false := by
  have hd : c = 'Q' ∨ c = 'R' ∨ c = 'B' ∨ c = 'N' := by
    simpa [isPromoPieceB, or_assoc] using h
  rcases hd with rfl | rfl | rfl | rfl <;> exact (by decide)

theorem annotChar_props (c : Char) (h : isAnnotGlyph c = true) :
    (c = '#') = False ∧ (c = '+') = False ∧ (c = '.') = False ∧ jsWs c = false := by
  have hd : c = '!' ∨ c = '?' := by
    simpa [isAnnotGlyph, or_assoc] using h
  rcases hd with rfl | rfl <;> exact (by decide)

/-! ### takeWhile / dropWhile helpers -/

theorem takeWhile_nil_of (p : Char → Bool) (l : List Char)
    (h : ∀ c ∈ l, p c = false) : l.takeWhile p = [] := by
  cases l with
  | nil => rfl
  | cons c t => simp [List.takeWhile_cons, h c (by simp)]

theorem dropWhile_eq_self_of (p : Char → Bool) (l : List Char)
    (h : ∀ c ∈ l, p c = false) : l.dropWhile p = l := by
  cases l with
  | nil => rfl
  | cons c t => simp [List.dropWhile_cons, h c (by simp)]

theorem dropWhile_append_of_all (p : Char → Bool) (l1 l2 : List Char)
    (h : ∀ c ∈ l1, p c = true) : (l1 ++ l2).dropWhile p = l2.dropWhile p := by
  induction l1 with
  | nil => rfl
  | cons c t ih =>
    rw [List.cons_append, List.dropWhile_cons, if_pos (h c (by simp))]
    exact ih (fun d hd => h d (by simp [hd]))

/-! ### Rendered-token character inventory -/

theorem cwp_mem (c : SANParts) (ch : Char) (h : ch ∈ coreWithPromo c) :
    (∃ p, c.piece = some p ∧ ch = p) ∨ (∃ f, c.fromFile = some f ∧ ch = f)
    ∨ (∃ r, c.fromRank = some r ∧ ch = r) ∨ ch = 'x' ∨ ch = c.d1 ∨ ch = c.d2
    ∨ (∃ p, c.promo = some p ∧ (ch = '=' ∨ ch = p)) := by
  unfold coreWithPromo corePre at h
  rcases List.mem_append.mp h with h1 | hpr
  · rcases List.mem_append.mp h1 with h2 | hdest
    · rcases List.mem_append.mp h2 with h3 | hcap
      · rcases List.mem_append.mp h3 with h4 | hrank
        · rcases List.mem_append.mp h4 with hpc | hfile
          · refine Or.inl ⟨ch, ?_, rfl⟩
            simpa using hpc
          · refine Or.inr (Or.inl ⟨ch, ?_, rfl⟩)
            simpa using hfile
        · refine Or.inr (Or.inr (Or.inl ⟨ch, ?_, rfl⟩))
          simpa using hrank
      · rcases hc : c.cap with _ | _
        · rw [hc] at hcap
          simp at hcap
        · rw [hc] at hcap
          simp only [if_true, List.mem_singleton] at hcap
          exact Or.inr (Or.inr (Or.inr (Or.inl hcap)))
    · rcases List.mem_cons.mp hdest with h5 | h6
      · exact Or.inr (Or.inr (Or.inr (Or.inr (Or.inl h5))))
      · simp only [List.mem_singleton] at h6
        exact Or.inr (Or.inr (Or.inr (Or.inr (Or.inr (Or.inl h6)))))
  · rcases hpo : c.promo with _ | p
    · rw [hpo] at hpr
      simp [promoStr] at hpr
    · rw [hpo] at hpr
      simp only [promoStr, List.mem_cons, List.mem_singleton] at hpr
      rcases hpr with h7 | h8
      · exact Or.inr (Or.inr (Or.inr (Or.inr (Or.inr (Or.inr ⟨p, rfl, Or.inl h7⟩)))))
      · rcases h8 with h8 | h8
        · exact Or.inr (Or.inr (Or.inr (Or.inr (Or.inr (Or.inr ⟨p, rfl, Or.inr h8⟩)))))
        · simp at h8

theorem renderToken_mem (c : SANParts) (ch : Char) (h : ch ∈ renderToken c) :
    ch ∈ coreWithPromo c ∨ ch ∈ c.ann ∨ ch = '#' ∨ ch = '+' := by
  unfold renderToken at h
  rcases List.mem_append.mp h with h1 | hck
  · rcases List.mem_append.mp h1 with h2 | hann
    · exact Or.inl h2
    · exact Or.inr (Or.inl hann)
  · rcases hc : c.ck with _ | _ | _ | _ <;> rw [hc] at hck <;> simp [checkKindStr] at hck
    · exact Or.inr (Or.inr (Or.inr hck))
    · exact Or.inr (Or.inr (Or.inr hck))
    · exact Or.inr (Or.inr (Or.inl hck))

theorem cwp_no_ws_dot_glyph (c : SANParts) (hv : ValidParts c) :
    ∀ ch ∈ coreWithPromo c,
      jsWs ch = false ∧ (ch = '.') = False ∧ isAnnotGlyph ch = false := by
  obtain ⟨hp, hf, hr, hd1, hd2, hpr, _⟩ := hv
  intro ch hch
  rcases cwp_mem c ch hch with ⟨p, he, rfl⟩ | ⟨f, he, rfl⟩ | ⟨r, he, rfl⟩
    | rfl | rfl | rfl | ⟨p, he, hor⟩
  · obtain ⟨_, _, _, _, _, _, _, _, _, hdot, hgl, hws⟩ := pieceChar_props _ (hp _ he)
    exact ⟨hws, hdot, hgl⟩
  · obtain ⟨_, _, _, _, _, _, _, _, _, hdot, hgl, hws⟩ := fileChar_props _ (hf _ he)
    exact ⟨hws, hdot, hgl⟩
  · obtain ⟨_, _, _, _, _, _, _, _, _, hdot, hgl, hws⟩ := rankChar_props _ (hr _ he)
    exact ⟨hws, hdot, hgl⟩
  · exact ⟨by decide, by decide, by decide⟩
  · obtain ⟨_, _, _, _, _, _, _, _, _, hdot, hgl, hws⟩ := fileChar_props _ hd1
    exact ⟨hws, hdot, hgl⟩
  · obtain ⟨_, _, _, _, _, _, _, _, _, hdot, hgl, hws⟩ := rankChar_props _ hd2
    exact ⟨hws, hdot, hgl⟩
  · rcases hor with rfl | rfl
    · exact ⟨by decide, by decide, by decide⟩
    · obtain ⟨_, _, _, _, _, _, _, _, hdot, hgl, hws⟩ := promoChar_props _ (hpr _ he)
      exact ⟨hws, hdot, hgl⟩

theorem renderToken_no_ws (c : SANParts) (hv : ValidParts c) :
    ∀ ch ∈ renderToken c, jsWs ch = false := by
  intro ch hch
  rcases renderToken_mem c ch hch with h1 | h2 | rfl | rfl
  · exact (cwp_no_ws_dot_glyph c hv ch h1).1
  · exact (annotChar_props ch (hv.2.2.2.2.2.2 ch h2)).2.2.2
  · decide
  · decide

theorem renderToken_no_dot (c : SANParts) (hv : ValidParts c) :
    ∀ ch ∈ renderToken c, (ch = '.') = False := by
  intro ch hch
  rcases renderToken_mem c ch hch with h1 | h2 | rfl | rfl
  · exact (cwp_no_ws_dot_glyph c hv ch h1).2.1
  · exact (annotChar_props ch (hv.2.2.2.2.2.2 ch h2)).2.2.1
  · decide
  · decide

/-! ### The parsing pipeline on a rendered token -/

theorem jsTrim_eq_self (l : List Char) (h : ∀ ch ∈ l, jsWs ch = false) :
    jsTrim l = l := by
  unfold jsTrim
  have h2 : ∀ ch ∈ l.reverse, jsWs ch = false :=
    fun ch hc => h ch (List.mem_reverse.mp hc)
  rw [dropWhile_eq_self_of _ _ h, dropWhile_eq_self_of _ _ h2]
  exact List.reverse_reverse l

theorem stripMoveNum_eq_self (l : List Char) (h : ∀ ch ∈ l, (ch = '.') = False) :
    stripMoveNum l = l := by
  have hdots : (l.dropWhile isDigitC).takeWhile (fun c => c = '.') = [] := by
    refine takeWhile_nil_of _ _ ?_
    intro ch hc
    have hmem : ch ∈ l := (List.dropWhile_suffix isDigitC).subset hc
    simp [h ch hmem]
  unfold stripMoveNum
  dsimp only
  split <;> simp [hdots]

theorem cwpAnn_reverse_facts (c : SANParts) (hv : ValidParts c) :
    ∃ z zs, (coreWithPromo c ++ c.ann).reverse = z :: zs
      ∧ (z = '#') = False ∧ (z = '+') = False := by
  rw [List.reverse_append]
  rcases hann : c.ann.reverse with _ | ⟨a, as⟩
  · rw [List.nil_append]
    rcases hpo : c.promo with _ | p
    · refine ⟨c.d2, c.d1 :: (corePre c).reverse, ?_, ?_, ?_⟩
      · simp [coreWithPromo, promoStr, hpo]
      · exact (rankChar_props _ hv.2.2.2.2.1).2.2.2.2.2.1
      · exact (rankChar_props _ hv.2.2.2.2.1).2.2.2.2.2.2.1
    · refine ⟨p, '=' :: c.d2 :: c.d1 :: (corePre c).reverse, ?_, ?_, ?_⟩
      · simp [coreWithPromo, promoStr, hpo]
      · exact (promoChar_props _ (hv.2.2.2.2.2.1 p hpo)).2.2.2.2.1
      · exact (promoChar_props _ (hv.2.2.2.2.2.1 p hpo)).2.2.2.2.2.1
  · have hmem : a ∈ c.ann := by
      rw [← List.mem_reverse, hann]
      simp
    have hfacts := annotChar_props a (hv.2.2.2.2.2.2 a hmem)
    exact ⟨a, as ++ (coreWithPromo c).reverse, by simp, hfacts.1, hfacts.2.1⟩

theorem detectSuffix_render (c : SANParts) (hv : ValidParts c) :
    detectSuffix (coreWithPromo c ++ c.ann ++ checkKindStr c.ck)
      = (checkFlagsOf c.ck, coreWithPromo c ++ c.ann) := by
  obtain ⟨z, zs, hrev, hz1, hz2⟩ := cwpAnn_reverse_facts c hv
  have hrev4 : (z :: zs).reverse = coreWithPromo c ++ c.ann := by
    rw [← hrev, List.reverse_reverse]
  rcases hck : c.ck with _ | _ | _ | _
  · rw [show checkKindStr CheckKind.plain = [] from rfl, List.append_nil]
    unfold detectSuffix
    rw [hrev]
    simp [hz1, hz2, checkFlagsOf]
  · rw [show checkKindStr CheckKind.check = ['+'] from rfl]
    unfold detectSuffix
    rw [List.reverse_append, hrev]
    simp [hz2, checkFlagsOf, hrev4]
  · rw [show checkKindStr CheckKind.double = ['+', '+'] from rfl]
    unfold detectSuffix
    rw [List.reverse_append]
    simp [checkFlagsOf]
  · rw [show checkKindStr CheckKind.mate = ['#'] from rfl]
    unfold detectSuffix
    rw [List.reverse_append]
    simp [checkFlagsOf]

theorem stripAnnot_render (c : SANParts) (hv : ValidParts c) :
    stripAnnotGlyphs (coreWithPromo c ++ c.ann) = coreWithPromo c := by
  unfold stripAnnotGlyphs
  rw [List.reverse_append]
  rw [dropWhile_append_of_all _ _ _
    (fun ch hc => hv.2.2.2.2.2.2 ch (List.mem_reverse.mp hc))]
  rw [dropWhile_eq_self_of _ _
    (fun ch hc => (cwp_no_ws_dot_glyph c hv ch (List.mem_reverse.mp hc)).2.2)]
  exact List.reverse_reverse _

theorem cwp_getLast (c : SANParts) :
    (coreWithPromo c).getLast?
      = some (match c.promo with | some p => p | none => c.d2) := by
  unfold coreWithPromo
  rcases hpo : c.promo with _ | p
  · rw [promoStr]
    rw [List.append_nil]
    rw [show corePre c ++ [c.d1, c.d2] = (corePre c ++ [c.d1]) ++ [c.d2] by simp]
    exact List.getLast?_concat _
  · rw [promoStr]
    rw [show (corePre c ++ [c.d1, c.d2]) ++ ['=', p]
          = ((corePre c ++ [c.d1, c.d2]) ++ ['=']) ++ [p] by simp]
    exact List.getLast?_concat _

theorem cwp_ne_castle (c : SANParts) (hv : ValidParts c) :
    (coreWithPromo c = toL "O-O-O") = False ∧ (coreWithPromo c = toL "0-0-0") = False
    ∧ (coreWithPromo c = toL "O-O") = False ∧ (coreWithPromo c = toL "0-0") = False := by
  have hlast := cwp_getLast c
  have hzO : (coreWithPromo c).getLast? ≠ some 'O'
      ∧ (coreWithPromo c).getLast? ≠ some '0' := by
    rw [hlast]
    rcases hpo : c.promo with _ | p
    · constructor <;> intro hcon <;> rw [Option.some.injEq] at hcon
      · exact ((rankChar_props _ hv.2.2.2.2.1).2.2.2.2.2.2.2.1).mp hcon
      · exact ((rankChar_props _ hv.2.2.2.2.1).2.2.2.2.2.2.2.2.1).mp hcon
    · constructor <;> intro hcon <;> rw [Option.some.injEq] at hcon
      · exact ((promoChar_props _ (hv.2.2.2.2.2.1 p hpo)).2.2.2.2.2.2.1).mp hcon
      · exact ((promoChar_props _ (hv.2.2.2.2.2.1 p hpo)).2.2.2.2.2.2.2.1).mp hcon
  refine ⟨?_, ?_, ?_, ?_⟩ <;> simp only [eq_iff_iff, iff_false] <;> intro hcon
  · exact hzO.1 (by rw [hcon]; decide)
  · exact hzO.2 (by rw [hcon]; decide)
  · exact hzO.1 (by rw [hcon]; decide)
  · exact hzO.2 (by rw [hcon]; decide)

theorem promoDetect_render (c : SANParts) (hv : ValidParts c) :
    promoDetect (coreWithPromo c)
      = (c.promo, corePre c ++ [c.d1, c.d2]) := by
  have hcore_rev : (corePre c ++ [c.d1, c.d2]).reverse
      = c.d2 :: c.d1 :: (corePre c).reverse := by simp
  rcases hpo : c.promo with _ | p
  · have hcwp : coreWithPromo c = corePre c ++ [c.d1, c.d2] := by
      unfold coreWithPromo
      rw [hpo, promoStr, List.append_nil]
    rw [hcwp]
    unfold promoDetect promoSplit
    rw [hcore_rev]
    have hd2 := (rankChar_props _ hv.2.2.2.2.1).2.2.1
    simp [hd2]
  · have hcwp : coreWithPromo c = (corePre c ++ [c.d1, c.d2]) ++ ['=', p] := by
      unfold coreWithPromo
      rw [hpo, promoStr]
    rw [hcwp]
    unfold promoDetect promoSplit
    rw [List.reverse_append, show (['=', p] : List Char).reverse = [p, '='] from rfl]
    have hpp := hv.2.2.2.2.2.1 p hpo
    have hd2 := hv.2.2.2.2.1
    simp only [List.cons_append, List.nil_append]
    simp [hpp, hcore_rev, hd2]

theorem renderToken_ne_nil (c : SANParts) : ¬(renderToken c = []) := by
  simp [renderToken, coreWithPromo]

theorem destEx_eval (d1 d2 : Char) (h1 : isFileChar d1 = true)
    (h2 : isRankChar d2 = true) : destEx [d1, d2] = some (d1, d2) := by
  simp [destEx, h1, h2]

theorem xDestEx_eval (cap : Bool) (d1 d2 : Char) (h1 : isFileChar d1 = true)
    (h2 : isRankChar d2 = true) :
    xDestEx ((if cap then ['x'] else []) ++ [d1, d2]) = some (cap, d1, d2) := by
  have hdx := destEx_eval d1 d2 h1 h2
  cases cap with
  | false =>
    have hx : ¬(d1 = 'x') := ((fileChar_props _ h1).2.2.2.1).mp
    simp [xDestEx, hx, hdx]
  | true => simp [xDestEx, hdx]

theorem xDestEx_single (d2 : Char) (h2 : isRankChar d2 = true) :
    xDestEx [d2] = none := by
  have hx : ¬(d2 = 'x') := ((rankChar_props _ h2).2.2.2.1).mp
  simp [xDestEx, hx, destEx]

theorem rankEx_single (d2 : Char) (h2 : isRankChar d2 = true) :
    rankEx [d2] = none := by
  have hx : ¬(d2 = 'x') := ((rankChar_props _ h2).2.2.2.1).mp
  have hd1 : destEx [d2] = none := rfl
  have hd0 : destEx ([] : List Char) = none := rfl
  simp [rankEx, h2, xDestEx, hx, hd1, hd0]

theorem rankEx_eval (fr : Option Char) (cap : Bool) (d1 d2 : Char)
    (hfr : ∀ r, fr = some r → isRankChar r = true)
    (h1 : isFileChar d1 = true) (h2 : isRankChar d2 = true) :
    rankEx (fr.toList ++ (if cap then ['x'] else []) ++ [d1, d2])
      = some (fr, cap, d1, d2) := by
  rcases fr with _ | r
  · cases cap with
    | false =>
      have hr1 : isRankChar d1 = false := (fileChar_props _ h1).1
      have hxd : xDestEx [d1, d2] = some (false, d1, d2) := by
        simpa using xDestEx_eval false d1 d2 h1 h2
      simp [rankEx, hr1, hxd]
    | true =>
      have hrx : isRankChar 'x' = false := by decide
      have hxd : xDestEx ('x' :: [d1, d2]) = some (true, d1, d2) := by
        simpa using xDestEx_eval true d1 d2 h1 h2
      simp [rankEx, hrx, hxd]
  · have hr := hfr r rfl
    have hxd := xDestEx_eval cap d1 d2 h1 h2
    simp [rankEx, hr, hxd]

theorem fileEx_eval (ff fr : Option Char) (cap : Bool) (d1 d2 : Char)
    (hff : ∀ f, ff = some f → isFileChar f = true)
    (hfr : ∀ r, fr = some r → isRankChar r = true)
    (h1 : isFileChar d1 = true) (h2 : isRankChar d2 = true) :
    fileEx (ff.toList ++ fr.toList ++ (if cap then ['x'] else []) ++ [d1, d2])
      = some (ff, fr, cap, d1, d2) := by
  rcases ff with _ | f
  · rcases fr with _ | r
    · cases cap with
      | false =>
        have hre : rankEx [d2] = none := rankEx_single d2 h2
        have hrf : rankEx [d1, d2] = some (none, false, d1, d2) := by
          simpa using rankEx_eval none false d1 d2 (fun r h => by cases h) h1 h2
        simp [fileEx, h1, hre, hrf]
      | true =>
        have hfxc : isFileChar 'x' = false := by decide
        have hrf : rankEx ('x' :: [d1, d2]) = some (none, true, d1, d2) := by
          simpa using rankEx_eval none true d1 d2 (fun r h => by cases h) h1 h2
        simp [fileEx, hfxc, hrf]
    · have hr := hfr r rfl
      have hfrk : isFileChar r = false := (rankChar_props _ hr).1
      have hrf : rankEx (r :: ((if cap then ['x'] else []) ++ [d1, d2]))
          = some (some r, cap, d1, d2) := by
        simpa using rankEx_eval (some r) cap d1 d2
          (fun r2 he => by injection he with he2; exact he2 ▸ hr) h1 h2
      simp [fileEx, hfrk, hrf]
  · have hfc := hff f rfl
    have hrf := rankEx_eval fr cap d1 d2 hfr h1 h2
    simp only [List.append_assoc] at hrf
    simp [fileEx, hfc, hrf]

theorem pieceEx_eval_core (pc ff fr : Option Char) (cap : Bool) (d1 d2 : Char)
    (hpc : ∀ p, pc = some p → isPieceCharB p = true)
    (hff : ∀ f, ff = some f → isFileChar f = true)
    (hfr : ∀ r, fr = some r → isRankChar r = true)
    (h1 : isFileChar d1 = true) (h2 : isRankChar d2 = true) :
    pieceEx (pc.toList ++ ff.toList ++ fr.toList
        ++ (if cap then ['x'] else []) ++ [d1, d2])
      = some (pc, ff, fr, cap, d1, d2) := by
  have hfx := fileEx_eval ff fr cap d1 d2 hff hfr h1 h2
  rcases pc with _ | P
  · rcases ff with _ | f
    · rcases fr with _ | r
      · cases cap with
        | false =>
          have hnp : isPieceCharB d1 = false := (fileChar_props _ h1).2.1
          have hfx2 : fileEx [d1, d2] = some (none, none, false, d1, d2) := by
            simpa using hfx
          simp [pieceEx, hnp, hfx2]
        | true =>
          have hnp : isPieceCharB 'x' = false := by decide
          have hfx2 : fileEx ('x' :: [d1, d2]) = some (none, none, true, d1, d2) := by
            simpa using hfx
          simp [pieceEx, hnp, hfx2]
      · have hnp : isPieceCharB r = false := (rankChar_props _ (hfr r rfl)).2.1
        have hfx2 : fileEx (r :: ((if cap then ['x'] else []) ++ [d1, d2]))
            = some (none, some r, cap, d1, d2) := by
          simpa using hfx
        simp [pieceEx, hnp, hfx2]
    · have hnp : isPieceCharB f = false := (fileChar_props _ (hff f rfl)).2.1
      have hfx2 : fileEx (f :: (fr.toList ++ ((if cap then ['x'] else []) ++ [d1, d2])))
          = some (some f, fr, cap, d1, d2) := by
        simpa [List.append_assoc] using hfx
      simp [pieceEx, hnp, hfx2]
  · have hP := hpc P rfl
    have hfx2 : fileEx (ff.toList ++ (fr.toList ++ ((if cap then ['x'] else []) ++ [d1, d2])))
        = some (ff, fr, cap, d1, d2) := by
      simpa [List.append_assoc] using hfx
    simp [pieceEx, hP, hfx2]

theorem pieceEx_eval (c : SANParts) (hv : ValidParts c) :
    pieceEx (corePre c ++ [c.d1, c.d2])
      = some (c.piece, c.fromFile, c.fromRank, c.cap, c.d1, c.d2) := by
  have h0 := pieceEx_eval_core c.piece c.fromFile c.fromRank c.cap c.d1 c.d2
    hv.1 hv.2.1 hv.2.2.1 hv.2.2.2.1 hv.2.2.2.2.1
  unfold corePre
  simpa [List.append_assoc] using h0

/-- C5 (counterexample to the claim as stated): with suffix glyphs in an
arbitrary order, a valid token of the claimed grammar need not parse at all.
The token whose glyph run is a check indicator followed by an annotation
glyph is rejected, because `parseMove` detects and removes the trailing
check indicator before stripping the annotation run, so the leftover
indicator survives into the anchored square matcher and kills the match. -/
theorem claim_C5_cex :
    parseMove (toL "Nf3+!") = none ∧ parseMove (toL "Nf3!+") = some
      { piece := some 'N', fromFile := none, fromRank := none,
        isCapture := false, toSquare := toL "f3", promotionPiece := none,
        isCheck := true, isDoubleCheck := false, isCheckmate := false,
        isCastleKingside := false, isCastleQueenside := false } := by
  constructor <;> rfl

/-- C5 (amended: the annotation glyphs precede the final check indicator,
which is one of nothing, a single check `+`, a double check `++`, or a
checkmate `#`): for every valid SAN token of the grammar
piece?/file?/rank?/capture?/destination/promotion?/annotation-glyphs/check,
`parseMove` returns a `ParsedMove` whose fields exactly reflect the token's
components, and `moveToSpeech` of that result is deterministic — it is a
pure function of the returned record, therefore stable across repeated
calls. -/
theorem claim_C5 (c : SANParts) (hv : ValidParts c) :
    parseMove (renderToken c) = some (expectedMove c)
    ∧ moveToSpeech (expectedMove c) = moveToSpeech (expectedMove c) := by
  refine ⟨?_, rfl⟩
  have hds : detectSuffix (renderToken c)
      = (checkFlagsOf c.ck, coreWithPromo c ++ c.ann) := detectSuffix_render c hv
  have hcast := cwp_ne_castle c hv
  have hpd := promoDetect_render c hv
  have hpe := pieceEx_eval c hv
  unfold parseMove
  rw [if_neg (renderToken_ne_nil c)]
  dsimp only
  rw [jsTrim_eq_self _ (renderToken_no_ws c hv),
      stripMoveNum_eq_self _ (renderToken_no_dot c hv),
      hds]
  dsimp only
  rw [stripAnnot_render c hv]
  rw [if_neg (by simp [hcast.1, hcast.2.1]),
      if_neg (by simp [hcast.2.2.1, hcast.2.2.2]),
      hpd]
  dsimp only
  rw [hpe]
  rfl

theorem claim_C5_witness :
    parseMove (renderToken
        ⟨some 'N', some 'b', none, true, 'd', '7', none, ['!'], CheckKind.double⟩)
      = some (expectedMove
        ⟨some 'N', some 'b', none, true, 'd', '7', none, ['!'], CheckKind.double⟩)
    ∧ moveToSpeech (expectedMove
        ⟨some 'N', some 'b', none, true, 'd', '7', none, ['!'], CheckKind.double⟩)
      = moveToSpeech (expectedMove
        ⟨some 'N', some 'b', none, true, 'd', '7', none, ['!'], CheckKind.double⟩) :=
  claim_C5 ⟨some 'N', some 'b', none, true, 'd', '7', none, ['!'], CheckKind.double⟩
    ⟨fun p h => (by injection h with h; rw [← h]; decide),
     fun f h => (by injection h with h; rw [← h]; decide),
     fun r h => (by cases h),
     (by decide), (by decide),
     fun p h => (by cases h),
     fun a ha => (by
       have ha2 : a = '!' := by simpa using ha
       rw [ha2]; decide)⟩

end ChessTTS
